import Mathlib

/-!
# Bitcoin v0.12.1 : block-file statistics, wallet caches, validation pipeline

A shallow embedding of the parts of `src/main.h` and `src/wallet/wallet.h`
that carry behaviour, followed by the properties proved about them.
Functions that main.h only declares (their bodies are in main.cpp) are
modelled from the specification; each such definition says so.

Machine integers are natural numbers; where the C++ arithmetic can wrap
(`nBlocks++` on an `unsigned int`) the reduction modulo `2^32` is explicit.
-/

namespace Bitcoin

/-! ## Constants of `main.h` -/

/-- The constant `MAX_BLOCKFILE_SIZE` of main.h, line 66. -/
def MAX_BLOCKFILE_SIZE : Nat := 0x8000000

/-- The constant `BLOCKFILE_CHUNK_SIZE` of main.h, line 68. -/
def BLOCKFILE_CHUNK_SIZE : Nat := 0x1000000

/-- The constant `UNDOFILE_CHUNK_SIZE` of main.h, line 70. -/
def UNDOFILE_CHUNK_SIZE : Nat := 0x100000

/-- The constant `MIN_BLOCKS_TO_KEEP` of main.h, line 166. -/
def MIN_BLOCKS_TO_KEEP : Nat := 288

/-- The constant `REJECT_CONFLICT` of main.h, line 554. -/
def REJECT_CONFLICT : Nat := 0x102

/-- Range of a C++ `unsigned int`. -/
def UINT_RANGE : Nat := 2 ^ 32

/-! ## `CBlockFileInfo` (main.h, lines 452-504) -/

/-- The class `CBlockFileInfo`: the seven counters kept per block file. -/
structure CBlockFileInfo where
  nBlocks : Nat
  nSize : Nat
  nUndoSize : Nat
  nHeightFirst : Nat
  nHeightLast : Nat
  nTimeFirst : Nat
  nTimeLast : Nat
  deriving DecidableEq, Repr

namespace CBlockFileInfo

/-- The method `SetNull`, which is also what the constructor runs. -/
def SetNull : CBlockFileInfo :=
  { nBlocks := 0, nSize := 0, nUndoSize := 0, nHeightFirst := 0,
    nHeightLast := 0, nTimeFirst := 0, nTimeLast := 0 }

/-- The method `AddBlock(nHeightIn, nTimeIn)`, statement by statement:
the two `First` updates read `nBlocks` before the increment, the two `Last`
updates come after it, and `nBlocks++` wraps at `2^32`. -/
def AddBlock (f : CBlockFileInfo) (nHeightIn nTimeIn : Nat) : CBlockFileInfo :=
  let f1 := if f.nBlocks = 0 ∨ f.nHeightFirst > nHeightIn
            then { f with nHeightFirst := nHeightIn } else f
  let f2 := if f1.nBlocks = 0 ∨ f1.nTimeFirst > nTimeIn
            then { f1 with nTimeFirst := nTimeIn } else f1
  let f3 := { f2 with nBlocks := (f2.nBlocks + 1) % UINT_RANGE }
  let f4 := if nHeightIn > f3.nHeightLast
            then { f3 with nHeightLast := nHeightIn } else f3
  if nTimeIn > f4.nTimeLast then { f4 with nTimeLast := nTimeIn } else f4

/-- Calling `AddBlock` on each (height, time) pair of a list in turn. -/
def AddBlocks (f : CBlockFileInfo) (l : List (Nat × Nat)) : CBlockFileInfo :=
  l.foldl (fun g p => g.AddBlock p.1 p.2) f

end CBlockFileInfo

/-! ## `CWalletTx` cache flags (wallet.h, lines 239-365) -/

/-- The memory-only part of `CWalletTx`: nine cache-valid flags and the nine
cached amounts they guard. -/
structure CWalletTx where
  fDebitCached : Bool
  fCreditCached : Bool
  fImmatureCreditCached : Bool
  fAvailableCreditCached : Bool
  fWatchDebitCached : Bool
  fWatchCreditCached : Bool
  fImmatureWatchCreditCached : Bool
  fAvailableWatchCreditCached : Bool
  fChangeCached : Bool
  nDebitCached : Int
  nCreditCached : Int
  nImmatureCreditCached : Int
  nAvailableCreditCached : Int
  nWatchDebitCached : Int
  nWatchCreditCached : Int
  nImmatureWatchCreditCached : Int
  nAvailableWatchCreditCached : Int
  nChangeCached : Int
  deriving DecidableEq, Repr

namespace CWalletTx

/-- The method `MarkDirty` (wallet.h, lines 355-365): the eight assignments
of the body, in the order they are written. -/
def MarkDirty (w : CWalletTx) : CWalletTx :=
  { w with
    fCreditCached := false
    fAvailableCreditCached := false
    fWatchDebitCached := false
    fWatchCreditCached := false
    fAvailableWatchCreditCached := false
    fImmatureWatchCreditCached := false
    fDebitCached := false
    fChangeCached := false }

/-- The cache part of `Init` (wallet.h, lines 289-306): every flag cleared,
every amount zero. -/
def Init : CWalletTx :=
  { fDebitCached := false, fCreditCached := false, fImmatureCreditCached := false,
    fAvailableCreditCached := false, fWatchDebitCached := false,
    fWatchCreditCached := false, fImmatureWatchCreditCached := false,
    fAvailableWatchCreditCached := false, fChangeCached := false,
    nDebitCached := 0, nCreditCached := 0, nImmatureCreditCached := 0,
    nAvailableCreditCached := 0, nWatchDebitCached := 0, nWatchCreditCached := 0,
    nImmatureWatchCreditCached := 0, nAvailableWatchCreditCached := 0,
    nChangeCached := 0 }

/-- All nine cache-valid flags are false. -/
def allFlagsClear (w : CWalletTx) : Bool :=
  !w.fDebitCached && !w.fCreditCached && !w.fImmatureCreditCached &&
  !w.fAvailableCreditCached && !w.fWatchDebitCached && !w.fWatchCreditCached &&
  !w.fImmatureWatchCreditCached && !w.fAvailableWatchCreditCached && !w.fChangeCached

/-- A wallet transaction whose immature credit has been computed and cached
(as `GetImmatureCredit` leaves it), everything else as after `Init`. -/
def immatureCached : CWalletTx :=
  { Init with fImmatureCreditCached := true, nImmatureCreditCached := 5000000000 }

end CWalletTx

/-! ## Pruning (main.h, lines 243-258; spec §4.4 "Pruning") -/

/-- Modelled from the spec: the disk usage that pruning compares with its
target. Only the declaration of `FindFilesToPrune` is in main.h; the spec has
pruning "track per-block-file aggregate height range and size", so the usage is
the sum of the block and undo bytes of every file of the table. -/
def CalculateCurrentUsage (vinfoBlockFile : List CBlockFileInfo) : Nat :=
  (vinfoBlockFile.map (fun f => f.nSize + f.nUndoSize)).sum

/-- Modelled from the spec: the scan of `FindFilesToPrune` over the block-file
table, whose body (main.cpp) is not among the sources. Files are visited in
index order, `fileNumber` being the index of the head of the list. The scan
stops once "the disk space used is less than [the] user-defined target"
(main.h:244); a file is marked when its "entire height range lies further back
than the retention window", that is when its highest height is below
`tip − MIN_BLOCKS_TO_KEEP`, and its bytes then leave the usage; every other
file is left alone ("never touching files within the retention window"). -/
def FindFilesToPruneScan (nTipHeight nPruneTarget : Nat) :
    Nat → Nat → List CBlockFileInfo → List Nat
  | _, _, [] => []
  | fileNumber, nCurrentUsage, f :: rest =>
    if nCurrentUsage < nPruneTarget then []
    else if f.nHeightLast + MIN_BLOCKS_TO_KEEP < nTipHeight then
      fileNumber ::
        FindFilesToPruneScan nTipHeight nPruneTarget (fileNumber + 1)
          (nCurrentUsage - (f.nSize + f.nUndoSize)) rest
    else FindFilesToPruneScan nTipHeight nPruneTarget (fileNumber + 1) nCurrentUsage rest

/-- Modelled from the spec: `FindFilesToPrune(setFilesToPrune, nPruneAfterHeight)`,
declared at main.h:258 with its body in main.cpp, which is not among the
sources. `tip` is the height of `chainActive.Tip()` (`none` for an empty
chain). Nothing is marked when pruning is disabled ("pruning target size
(0 = disabled)"), nor before "the active chain exceeds a minimum retained
depth" (main.h:251: "Pruning cannot take place until the longest chain is at
least a certain length"); otherwise the table is scanned. The result is the
content of `setFilesToPrune`. -/
def FindFilesToPrune (vinfoBlockFile : List CBlockFileInfo) (tip : Option Nat)
    (nPruneTarget nPruneAfterHeight : Nat) : List Nat :=
  match tip with
  | none => []
  | some nTipHeight =>
    if nPruneTarget = 0 then []
    else if nTipHeight ≤ nPruneAfterHeight then []
    else FindFilesToPruneScan nTipHeight nPruneTarget 0
          (CalculateCurrentUsage vinfoBlockFile) vinfoBlockFile

/-- A block-file table for a chain of height 1000: file 0 holds heights
0..400, file 1 heights 401..800, file 2 heights 801..1000. -/
def pruneExampleTable : List CBlockFileInfo :=
  [ { nBlocks := 401, nSize := 100, nUndoSize := 10, nHeightFirst := 0,
      nHeightLast := 400, nTimeFirst := 0, nTimeLast := 400 },
    { nBlocks := 400, nSize := 100, nUndoSize := 10, nHeightFirst := 401,
      nHeightLast := 800, nTimeFirst := 401, nTimeLast := 800 },
    { nBlocks := 200, nSize := 50, nUndoSize := 5, nHeightFirst := 801,
      nHeightLast := 1000, nTimeFirst := 801, nTimeLast := 1000 } ]

/-! ## Data model of the validation core (spec §3) -/

/-- Modelled from the spec: an outpoint, the "(transaction id, output index)
pair identifying a Coin" (`COutPoint` is declared in primitives/transaction.h,
which is not among the sources). -/
structure COutPoint where
  hash : Nat
  n : Nat
  deriving DecidableEq, Repr

/-- Modelled from the spec: a Coin, "one unspent output — value, locking
script, originating block height, and a coinbase flag" (the class is declared
in coins.h, which is not among the sources). Scripts are opaque, identified
by a number. -/
structure Coin where
  nValue : Nat
  scriptPubKey : Nat
  nHeight : Nat
  fCoinBase : Bool
  deriving DecidableEq, Repr

/-- Modelled from the spec: a transaction input, the outpoint it spends and its
unlocking script (`CTxIn`, primitives/transaction.h, not among the sources). -/
structure CTxIn where
  prevout : COutPoint
  scriptSig : Nat
  deriving DecidableEq, Repr

/-- Modelled from the spec: a transaction output, value and locking script
(`CTxOut`, primitives/transaction.h, not among the sources). -/
structure CTxOut where
  nValue : Nat
  scriptPubKey : Nat
  deriving DecidableEq, Repr

/-- Modelled from the spec: a transaction with its id, its inputs and its
outputs (`CTransaction`, primitives/transaction.h, not among the sources). -/
structure CTransaction where
  hash : Nat
  vin : List CTxIn
  vout : List CTxOut
  deriving DecidableEq, Repr

/-- Modelled from the spec: a block, its hash, the hash of its parent and its
transaction list, whose "first transaction is the sole coinbase" (`CBlock`,
primitives/block.h, not among the sources). -/
structure CBlock where
  hash : Nat
  hashPrevBlock : Nat
  vtx : List CTransaction
  deriving DecidableEq, Repr

/-- Modelled from the spec: the sum of the output values of a transaction. -/
def CTransaction.GetValueOut (tx : CTransaction) : Nat :=
  (tx.vout.map CTxOut.nValue).sum

/-- The class `CScriptCheck` (main.h, lines 393-421), "closure representing
one script verification": the locking script of the spent output, the spending
transaction, the input index, the rule flags and the cache switch. The field
`error` is written by the call operator only and is its second result. -/
structure CScriptCheck where
  scriptPubKey : Nat
  ptxTo : CTransaction
  nIn : Nat
  nFlags : Nat
  cacheStore : Bool
  deriving DecidableEq, Repr

/-- Modelled from the spec: the outcome kinds of the error taxonomy of spec §7,
`Invalid` ("the object itself violates a consensus rule") and `Error` ("a
local/transient problem"), beside success (`CValidationState` is only
forward-declared at main.h:40). -/
inductive ValidationMode where
  | MODE_VALID
  | MODE_INVALID
  | MODE_ERROR
  deriving DecidableEq, Repr

/-! ## UTXO view layer (spec §3 "UTXO View", §4.1) -/

/-- Modelled from the spec: one cache layer of the UTXO view, a "mapping from
outpoint ... to Coin-or-tombstone, plus a best block marker", layered over a
parent (`CCoinsViewCache` is declared in coins.h, which is not among the
sources). `cacheCoins` buffers the writes of this layer, newest first, with
`none` for a tombstone; `base` is what the parent answers for an outpoint
this layer has no entry for. -/
structure CCoinsViewCache where
  base : COutPoint → Option Coin
  cacheCoins : List (COutPoint × Option Coin)
  hashBlock : Nat

/-- The newest buffered entry for an outpoint, if the layer has one. -/
def FetchCoin (o : COutPoint) : List (COutPoint × Option Coin) → Option (Option Coin)
  | [] => none
  | (k, e) :: rest => if k = o then some e else FetchCoin o rest

namespace CCoinsViewCache

/-- Modelled from the spec: `getCoin(outpoint) -> Coin | absent`; an outpoint
without an entry in this layer "must fall through to the backing store". -/
def GetCoin (v : CCoinsViewCache) (o : COutPoint) : Option Coin :=
  match FetchCoin o v.cacheCoins with
  | some e => e
  | none => v.base o

/-- Modelled from the spec: `spendCoin(outpoint)` "marks tombstoned in the
current layer". -/
def SpendCoin (v : CCoinsViewCache) (o : COutPoint) : CCoinsViewCache :=
  { v with cacheCoins := (o, none) :: v.cacheCoins }

/-- Writes a coin at an outpoint in the current layer, whatever was there. -/
def PutCoin (v : CCoinsViewCache) (o : COutPoint) (c : Coin) : CCoinsViewCache :=
  { v with cacheCoins := (o, some c) :: v.cacheCoins }

/-- Modelled from the spec: `addCoin(outpoint, coin, ...)` "inserts, rejecting
overwrite of an unspent entry unless explicitly allowed". -/
def AddCoin (v : CCoinsViewCache) (o : COutPoint) (c : Coin) (fAllowOverwrite : Bool) :
    Option CCoinsViewCache :=
  if fAllowOverwrite = false ∧ (v.GetCoin o).isSome = true then none
  else some (v.PutCoin o c)

/-- Modelled from the spec: `setBestBlock(hash)`. -/
def SetBestBlock (v : CCoinsViewCache) (h : Nat) : CCoinsViewCache :=
  { v with hashBlock := h }

/-- Modelled from the spec: a child overlay opened over a view; it starts
with an empty buffer and reads through to the parent. -/
def Child (parent : CCoinsViewCache) : CCoinsViewCache :=
  { base := parent.GetCoin, cacheCoins := [], hashBlock := parent.hashBlock }

/-- Modelled from the spec: `flush()` "pushes all buffered changes to the
parent ... atomically": the entries of the child go in front of the parent's
own, and the best-block marker is carried over. -/
def Flush (child parent : CCoinsViewCache) : CCoinsViewCache :=
  { parent with cacheCoins := child.cacheCoins ++ parent.cacheCoins,
                hashBlock := child.hashBlock }

end CCoinsViewCache

/-! ## Connecting and disconnecting a block (main.h, lines 431-438; spec §4.4) -/

/-- Modelled from the spec: the input step of the connect algorithm for one
transaction, "verify inputs exist and are not already spent within this
block". `vSpent` holds the outpoints spent so far in the block. Each input
is looked up in the child view, tombstoned there, and the coin it removed is
recorded for the undo data, in input order. `none` is a failed check. -/
def SpendInputs : CCoinsViewCache → List COutPoint → List CTxIn →
    Option (CCoinsViewCache × List COutPoint × List Coin)
  | v, vSpent, [] => some (v, vSpent, [])
  | v, vSpent, txin :: rest =>
    if txin.prevout ∈ vSpent then none
    else
      match v.GetCoin txin.prevout with
      | none => none
      | some c =>
        match SpendInputs (v.SpendCoin txin.prevout) (txin.prevout :: vSpent) rest with
        | none => none
        | some (v2, vSpent2, coins) => some (v2, vSpent2, c :: coins)

/-- Modelled from the spec: the create step of the connect algorithm for one
transaction: output `n`, `n+1`, ... of transaction `hash` becomes a Coin of
the child view through `addCoin` without permission to overwrite. -/
def AddOutputs (hash nHeight : Nat) (fCoinBase : Bool) :
    CCoinsViewCache → Nat → List CTxOut → Option CCoinsViewCache
  | v, _, [] => some v
  | v, n, out :: rest =>
    match v.AddCoin ⟨hash, n⟩ ⟨out.nValue, out.scriptPubKey, nHeight, fCoinBase⟩ false with
    | none => none
    | some v1 => AddOutputs hash nHeight fCoinBase v1 (n + 1) rest

/-- The script checks queued for a transaction: one `CScriptCheck` per input,
built from the coin the input spends (constructor at main.h:405-407). -/
def QueueChecks (tx : CTransaction) (nFlags : Nat) : Nat → List Coin → List CScriptCheck
  | _, [] => []
  | nIn, c :: rest =>
    ⟨c.scriptPubKey, tx, nIn, nFlags, false⟩ :: QueueChecks tx nFlags (nIn + 1) rest

/-- What the connect loop carries from one transaction to the next. -/
structure ConnectState where
  view : CCoinsViewCache
  vSpent : List COutPoint
  nFees : Nat
  vChecks : List CScriptCheck
  blockundo : List (List Coin)

/-- Modelled from the spec: one transaction of the connect algorithm: inputs
verified and spent, "sum of outputs ≤ sum of inputs, difference is the fee",
script checks queued, outputs created, undo data recorded. -/
def ConnectTx (nHeight nFlags : Nat) (st : ConnectState) (tx : CTransaction) :
    Option ConnectState :=
  match SpendInputs st.view st.vSpent tx.vin with
  | none => none
  | some (v1, vSpent1, coins) =>
    if (coins.map Coin.nValue).sum < tx.GetValueOut then none
    else
      match AddOutputs tx.hash nHeight false v1 0 tx.vout with
      | none => none
      | some v2 =>
        some { view := v2, vSpent := vSpent1,
               nFees := st.nFees + ((coins.map Coin.nValue).sum - tx.GetValueOut),
               vChecks := st.vChecks ++ QueueChecks tx nFlags 0 coins,
               blockundo := st.blockundo ++ [coins] }

/-- Modelled from the spec: the connect loop, "for each transaction in
order". -/
def ConnectTxs (nHeight nFlags : Nat) : ConnectState → List CTransaction → Option ConnectState
  | st, [] => some st
  | st, tx :: rest =>
    match ConnectTx nHeight nFlags st tx with
    | none => none
    | some st1 => ConnectTxs nHeight nFlags st1 rest

/-- The loop of `ConnectBlock` on a block body: the coinbase creates its
outputs in a child overlay opened over `view`, then the other transactions are
connected in order. -/
def ConnectLoop (view : CCoinsViewCache) (nHeight nFlags : Nat) (cb : CTransaction)
    (txs : List CTransaction) : Option ConnectState :=
  match AddOutputs cb.hash nHeight true view.Child 0 cb.vout with
  | none => none
  | some v1 =>
    ConnectTxs nHeight nFlags
      { view := v1, vSpent := [], nFees := 0, vChecks := [], blockundo := [] } txs

/-- Result of `ConnectBlock`: the validation state, the view the caller is
left with, and the undo data of the block. -/
structure ConnectResult where
  mode : ValidationMode
  view : CCoinsViewCache
  blockundo : List (List Coin)

/-- Modelled from the spec: `ConnectBlock` (declared at main.h:438, body in
main.cpp, which is not among the sources), after the connect algorithm of
spec §4.4. A child view is opened over `view`; every transaction in order has
its inputs verified (present, and not already spent within this block), its
fee accumulated, its script checks queued, and its spends and creates applied
to the child with the undo data recorded; the queued script checks are then
run and reduced with logical AND; the coinbase payout is verified, "strictly
greater than subsidy+fees is rejected; exactly equal is accepted"; on success
the child, with the block as best block, is flushed into the parent, except in
`fJustCheck` mode. Any failure is `Invalid` and discards the child: the view
handed back is the one received.

The spends and creates of a transaction are applied to the child as soon as
its inputs are verified, so that a later transaction of the block resolves its
inputs "as of connecting this block"; since a failure drops the child, this
cannot be told apart from applying them after the checks.

`GetBlockSubsidy` (main.h:241, body absent) and the script interpreter behind
`CScriptCheck::operator()` (main.h:409, body absent) are parameters. -/
def ConnectBlock (GetBlockSubsidy : Nat → Nat) (VerifyScript : CScriptCheck → Bool)
    (nFlags : Nat) (block : CBlock) (nHeight : Nat) (view : CCoinsViewCache)
    (fJustCheck : Bool) : ConnectResult :=
  match block.vtx with
  | [] => ⟨.MODE_INVALID, view, []⟩
  | cb :: txs =>
    match ConnectLoop view nHeight nFlags cb txs with
    | none => ⟨.MODE_INVALID, view, []⟩
    | some st =>
      if st.vChecks.all VerifyScript = false then ⟨.MODE_INVALID, view, []⟩
      else if cb.GetValueOut > GetBlockSubsidy nHeight + st.nFees then
        ⟨.MODE_INVALID, view, []⟩
      else if fJustCheck = true then ⟨.MODE_VALID, view, st.blockundo⟩
      else ⟨.MODE_VALID, (st.view.SetBestBlock block.hash).Flush view, st.blockundo⟩

/-- Modelled from the spec: disconnect, output side: "re-tombstone each Coin
the block had created", last output first. The flag reports whether every
coin was found as the block had created it. -/
def RemoveOutputs (hash nHeight : Nat) (fCoinBase : Bool) :
    CCoinsViewCache → Nat → List CTxOut → Bool × CCoinsViewCache
  | v, _, [] => (true, v)
  | v, n, out :: rest =>
    let r := RemoveOutputs hash nHeight fCoinBase v (n + 1) rest
    (r.1 && decide (r.2.GetCoin ⟨hash, n⟩ =
        some ⟨out.nValue, out.scriptPubKey, nHeight, fCoinBase⟩),
     r.2.SpendCoin ⟨hash, n⟩)

/-- Modelled from the spec: disconnect, input side: "restore each removed
Coin to the view" from the undo record of the transaction, last input first.
The flag is false when the record does not match the inputs or a coin to be
restored is still unspent; the reversal is applied all the same ("best-effort
reversal"). -/
def RestoreInputs : CCoinsViewCache → List CTxIn → List Coin → Bool × CCoinsViewCache
  | v, [], [] => (true, v)
  | v, txin :: rest, c :: coins =>
    let r := RestoreInputs v rest coins
    (r.1 && (r.2.GetCoin txin.prevout).isNone, r.2.PutCoin txin.prevout c)
  | v, _, _ => (false, v)

/-- Modelled from the spec: disconnect of the non-coinbase transactions "in
strict reverse transaction order": the tail of the list is undone before its
head. -/
def DisconnectTxs (nHeight : Nat) :
    CCoinsViewCache → List CTransaction → List (List Coin) → Bool × CCoinsViewCache
  | v, [], [] => (true, v)
  | v, tx :: rest, undo :: undos =>
    let r := DisconnectTxs nHeight v rest undos
    let r1 := RemoveOutputs tx.hash nHeight false r.2 0 tx.vout
    let r2 := RestoreInputs r1.2 tx.vin undo
    (r.1 && r1.1 && r2.1, r2.2)
  | v, _, _ => (false, v)

/-- Modelled from the spec: `DisconnectBlock` (declared at main.h:435, body in
main.cpp, which is not among the sources), after the disconnect algorithm of
spec §4.4: the transactions are undone in reverse order, the coinbase last,
and the best-block marker moves to the parent of the block. The first
component is the "clean" flag. -/
def DisconnectBlock (block : CBlock) (nHeight : Nat) (blockundo : List (List Coin))
    (view : CCoinsViewCache) : Bool × CCoinsViewCache :=
  match block.vtx with
  | [] => (false, view)
  | cb :: txs =>
    let r := DisconnectTxs nHeight view txs blockundo
    let r1 := RemoveOutputs cb.hash nHeight true r.2 0 cb.vout
    (r.1 && r1.1, r1.2.SetBestBlock block.hashPrevBlock)

/-- Connecting the blocks B1..Bn in turn at heights `nHeight`, `nHeight+1`,
...; the result is the final view and the undo data of each block, and is
`none` as soon as a block is not accepted. -/
def ConnectBlocks (GetBlockSubsidy : Nat → Nat) (VerifyScript : CScriptCheck → Bool)
    (nFlags : Nat) : CCoinsViewCache → Nat → List CBlock →
    Option (CCoinsViewCache × List (List (List Coin)))
  | v, _, [] => some (v, [])
  | v, nHeight, b :: rest =>
    let r := ConnectBlock GetBlockSubsidy VerifyScript nFlags b nHeight v false
    if r.mode = .MODE_VALID then
      match ConnectBlocks GetBlockSubsidy VerifyScript nFlags r.view (nHeight + 1) rest with
      | none => none
      | some (v2, undos) => some (v2, r.blockundo :: undos)
    else none

/-- Disconnecting the blocks B1..Bn in reverse order, Bn first, each with its
own undo data. -/
def DisconnectBlocks : CCoinsViewCache → Nat → List CBlock → List (List (List Coin)) →
    Bool × CCoinsViewCache
  | v, _, [], _ => (true, v)
  | v, nHeight, b :: rest, undo :: undos =>
    let r := DisconnectBlocks v (nHeight + 1) rest undos
    let r1 := DisconnectBlock b nHeight undo r.2
    (r.1 && r1.1, r1.2)
  | v, _, _ :: _, [] => (false, v)

/-- The blocks form a chain on top of the block with hash `hashTip`: each
block names its predecessor as parent. -/
def IsChainOnTop : Nat → List CBlock → Bool
  | _, [] => true
  | hashTip, b :: rest => decide (b.hashPrevBlock = hashTip) && IsChainOnTop b.hash rest

/-- Two views answer `GetCoin` alike on every outpoint. -/
def SameCoins (a b : CCoinsViewCache) : Prop :=
  ∀ o : COutPoint, a.GetCoin o = b.GetCoin o

/-- All outpoints referenced by the inputs of a list of transactions. -/
def AllPrevouts (txs : List CTransaction) : List COutPoint :=
  txs.flatMap (fun tx => tx.vin.map CTxIn.prevout)

/-! ## A worked example : a view, two blocks, a double spend -/

/-- A view over a backing store holding two coins, (1,0) worth 10 and (2,0)
worth 5, consistent with block 900. -/
def exampleView : CCoinsViewCache :=
  { base := fun o =>
      if o = ⟨1, 0⟩ then some ⟨10, 7, 0, false⟩
      else if o = ⟨2, 0⟩ then some ⟨5, 8, 0, false⟩ else none,
    cacheCoins := [], hashBlock := 900 }

/-- Subsidy schedule of the example: 50 at every height. -/
def exampleSubsidy : Nat → Nat := fun _ => 50

/-- Script interpreter of the example: an input unlocks a coin when its
unlocking script carries the number of the locking script. -/
def exampleVerify (check : CScriptCheck) : Bool :=
  match check.ptxTo.vin[check.nIn]? with
  | some txin => txin.scriptSig == check.scriptPubKey
  | none => false

/-- Block 901 on top of 900: the coinbase pays 51 = subsidy 50 + fee 1; the
other transaction spends coin (1,0), worth 10, into outputs of 7 and 2. -/
def exampleBlock1 : CBlock :=
  { hash := 901, hashPrevBlock := 900,
    vtx := [ ⟨100, [], [⟨51, 3⟩]⟩, ⟨101, [⟨⟨1, 0⟩, 7⟩], [⟨7, 4⟩, ⟨2, 5⟩]⟩ ] }

/-- Block 901 again, except that the coinbase pays 52 = subsidy + fee + 1. -/
def exampleBlock1Overpaid : CBlock :=
  { hash := 901, hashPrevBlock := 900,
    vtx := [ ⟨100, [], [⟨52, 3⟩]⟩, ⟨101, [⟨⟨1, 0⟩, 7⟩], [⟨7, 4⟩, ⟨2, 5⟩]⟩ ] }

/-- Block 902 on top of 901: its second transaction spends an output of the
first, which spends outputs created by block 901. -/
def exampleBlock2 : CBlock :=
  { hash := 902, hashPrevBlock := 901,
    vtx := [ ⟨200, [], [⟨50, 3⟩]⟩,
             ⟨201, [⟨⟨101, 0⟩, 4⟩, ⟨⟨100, 0⟩, 3⟩], [⟨58, 4⟩]⟩,
             ⟨202, [⟨⟨201, 0⟩, 4⟩, ⟨⟨2, 0⟩, 8⟩], [⟨63, 4⟩]⟩ ] }

/-- A block whose second and third transactions both spend coin (1,0). -/
def exampleDoubleSpend : CBlock :=
  { hash := 901, hashPrevBlock := 900,
    vtx := [ ⟨100, [], [⟨50, 3⟩]⟩, ⟨101, [⟨⟨1, 0⟩, 7⟩], [⟨7, 4⟩]⟩,
             ⟨102, [⟨⟨1, 0⟩, 7⟩], [⟨7, 4⟩]⟩ ] }

/-- The example view after blocks 901 and 902 have been connected: the
buffered entries, newest first, over the same backing store. -/
def exampleViewAfter : CCoinsViewCache :=
  { base := exampleView.base,
    cacheCoins :=
      [ (⟨202, 0⟩, some ⟨63, 4, 2, false⟩), (⟨2, 0⟩, none), (⟨201, 0⟩, none),
        (⟨201, 0⟩, some ⟨58, 4, 2, false⟩), (⟨100, 0⟩, none), (⟨101, 0⟩, none),
        (⟨200, 0⟩, some ⟨50, 3, 2, true⟩), (⟨101, 1⟩, some ⟨2, 5, 1, false⟩),
        (⟨101, 0⟩, some ⟨7, 4, 1, false⟩), (⟨1, 0⟩, none),
        (⟨100, 0⟩, some ⟨51, 3, 1, true⟩) ],
    hashBlock := 902 }

/-- The undo data of blocks 901 and 902 of the example. -/
def exampleUndos : List (List (List Coin)) :=
  [ [ [⟨10, 7, 0, false⟩] ],
    [ [⟨7, 4, 1, false⟩, ⟨51, 3, 1, true⟩], [⟨58, 4, 2, false⟩, ⟨5, 8, 0, false⟩] ] ]

/-! ## Parallel script verification (main.h, lines 223-224 and 389-421; spec §4.2, §5) -/

/-- The call operator `CScriptCheck::operator()` (main.h:409): its body is
absent, so the script interpreter it runs is the parameter `VerifyScript`.
The check is a "pure function of its inputs — no shared mutable state". -/
def CScriptCheck.Call (VerifyScript : CScriptCheck → Bool) (check : CScriptCheck) : Bool :=
  VerifyScript check

/-- Modelled from the spec: the loop one script-check worker runs over the
checks it is handed (`ThreadScriptCheck`, declared at main.h:224, body
absent). `fOk` is the worker's running result; after a first failure the
worker still takes its remaining checks but no longer runs them ("MAY cancel
pending work after the first failure"). -/
def WorkerLoop (VerifyScript : CScriptCheck → Bool) : Bool → List CScriptCheck → Bool
  | fOk, [] => fOk
  | fOk, check :: rest =>
    WorkerLoop VerifyScript (if fOk = true then check.Call VerifyScript else fOk) rest

/-- Sequential verification: one thread runs the checks in the order given. -/
def RunSequential (VerifyScript : CScriptCheck → Bool) (vChecks : List CScriptCheck) : Bool :=
  WorkerLoop VerifyScript true vChecks

/-- Modelled from the spec: parallel verification on the worker pool. Each
element of `batches` is what one worker took from the queue, in the order it
took it; the master waits for all workers ("synchronous join point") and the
results are "reduced with logical AND". -/
def RunParallel (VerifyScript : CScriptCheck → Bool) (batches : List (List CScriptCheck)) :
    Bool :=
  batches.foldl (fun fAllOk batch => fAllOk && WorkerLoop VerifyScript true batch) true

/-- Three script checks on inputs 0, 1, 2 of one transaction; the third names
a locking script its input does not carry. -/
def exampleChecks : List CScriptCheck :=
  [ ⟨4, ⟨201, [⟨⟨101, 0⟩, 4⟩, ⟨⟨100, 0⟩, 3⟩, ⟨⟨7, 0⟩, 1⟩], [⟨58, 4⟩]⟩, 0, 0, false⟩,
    ⟨3, ⟨201, [⟨⟨101, 0⟩, 4⟩, ⟨⟨100, 0⟩, 3⟩, ⟨⟨7, 0⟩, 1⟩], [⟨58, 4⟩]⟩, 1, 0, false⟩,
    ⟨9, ⟨201, [⟨⟨101, 0⟩, 4⟩, ⟨⟨100, 0⟩, 3⟩, ⟨⟨7, 0⟩, 1⟩], [⟨58, 4⟩]⟩, 2, 0, false⟩ ]

/-- The example checks as two workers took them: the third and the first on
one worker, the second on the other. -/
def exampleBatches : List (List CScriptCheck) :=
  [ [ ⟨9, ⟨201, [⟨⟨101, 0⟩, 4⟩, ⟨⟨100, 0⟩, 3⟩, ⟨⟨7, 0⟩, 1⟩], [⟨58, 4⟩]⟩, 2, 0, false⟩,
      ⟨4, ⟨201, [⟨⟨101, 0⟩, 4⟩, ⟨⟨100, 0⟩, 3⟩, ⟨⟨7, 0⟩, 1⟩], [⟨58, 4⟩]⟩, 0, 0, false⟩ ],
    [ ⟨3, ⟨201, [⟨⟨101, 0⟩, 4⟩, ⟨⟨100, 0⟩, 3⟩, ⟨⟨7, 0⟩, 1⟩], [⟨58, 4⟩]⟩, 1, 0, false⟩ ] ]

/-! ## Fork choice (main.h, lines 239-240; spec §3 "Block Index entry", §4.4) -/

/-- Modelled from the spec: a block-index entry, "hash, parent pointer (forms
a tree, not just a chain), height, cumulative proof-of-work" (`CBlockIndex` is
declared in chain.h, which is not among the sources). The parent pointer
`pprev` is embedded as the entry it points to, so two pointers are equal when
the entries are; the validation status is kept beside the entries, in
`ChainState.setFailed`. -/
inductive CBlockIndex where
  | genesis (hash nChainWork : Nat)
  | block (hash : Nat) (pprev : CBlockIndex) (nHeight nChainWork : Nat)
  deriving DecidableEq, Repr

namespace CBlockIndex

/-- Hash of the block of an entry. -/
def hash : CBlockIndex → Nat
  | genesis h _ => h
  | block h _ _ _ => h

/-- Height of the block of an entry; the genesis block has height 0. -/
def nHeight : CBlockIndex → Nat
  | genesis _ _ => 0
  | block _ _ n _ => n

/-- Cumulative proof-of-work of the chain ending in the entry. -/
def nChainWork : CBlockIndex → Nat
  | genesis _ w => w
  | block _ _ _ w => w

/-- The chain ending in an entry, tip first: the entry, its parent, and so on
down to the genesis block. -/
def Ancestors : CBlockIndex → List CBlockIndex
  | genesis h w => [genesis h w]
  | block h p n w => block h p n w :: Ancestors p

/-- Cumulative work grows strictly from each block of the chain to the next. -/
def WorkIncreasing : CBlockIndex → Bool
  | genesis _ _ => true
  | block _ p _ w => decide (p.nChainWork < w) && WorkIncreasing p

end CBlockIndex

/-- Modelled from the spec: the state owned by the Chain-State Controller: the
block-tree index in first-seen order (`mapBlockIndex`, main.h:132), the entries
known invalid, and the tip of the active chain (`chainActive`, main.h:524). -/
structure ChainState where
  mapBlockIndex : List CBlockIndex
  setFailed : List CBlockIndex
  tip : Option CBlockIndex
  deriving DecidableEq, Repr

/-- The better of a running best entry and the next one: the next entry wins
only with strictly more cumulative work, so the first seen wins a tie. -/
def MostWork (best : Option CBlockIndex) (e : CBlockIndex) : Option CBlockIndex :=
  match best with
  | none => some e
  | some b => if b.nChainWork < e.nChainWork then some e else some b

/-- Modelled from the spec: "among all block-index entries not known-invalid
... pick the entry with the greatest cumulative proof-of-work". -/
def FindMostWorkChain (st : ChainState) : Option CBlockIndex :=
  (st.mapBlockIndex.filter (fun e => decide (e ∉ st.setFailed))).foldl MostWork none

/-- Modelled from the spec: "mark that block and all its descendants
invalid". -/
def InvalidChainFound (st : ChainState) (bad : CBlockIndex) : ChainState :=
  { st with setFailed :=
      st.setFailed ++ st.mapBlockIndex.filter (fun e => decide (bad ∈ e.Ancestors)) }

/-- The blocks to connect for a candidate, in fork-to-tip order: the chain of
the candidate without the blocks of the active chain. -/
def BlocksToConnect (tip : Option CBlockIndex) (cand : CBlockIndex) : List CBlockIndex :=
  match tip with
  | none => cand.Ancestors.reverse
  | some t => cand.Ancestors.reverse.filter (fun e => decide (e ∉ t.Ancestors))

/-- Modelled from the spec: the loop of `ActivateBestChain` (declared at
main.h:240, body in main.cpp, which is not among the sources). Each round
picks the most-work candidate; if it is the tip there is nothing to do;
otherwise the blocks from the fork point to the candidate are connected in
order. `fConnects` tells whether connecting a block on top of its parent
succeeds (the verdict of `ConnectBlock`). When every block connects the
candidate is the new tip; at the first block that fails, that block and its
descendants are marked invalid, the tip is rolled back to what it was, and
fork choice is retried. `fuel` bounds the retries. -/
def ActivateBestChainLoop (fConnects : CBlockIndex → Bool) : Nat → ChainState → ChainState
  | 0, st => st
  | fuel + 1, st =>
    match FindMostWorkChain st with
    | none => st
    | some cand =>
      if st.tip = some cand then st
      else
        match (BlocksToConnect st.tip cand).find? (fun e => !fConnects e) with
        | none => { st with tip := some cand }
        | some bad => ActivateBestChainLoop fConnects fuel (InvalidChainFound st bad)

/-- Modelled from the spec: `ActivateBestChain`. The loop "terminates because
each failed candidate is permanently excluded and the candidate set is
finite": one round per index entry is enough, with one more to settle. -/
def ActivateBestChain (fConnects : CBlockIndex → Bool) (st : ChainState) : ChainState :=
  ActivateBestChainLoop fConnects (st.mapBlockIndex.length + 1) st

/-- Modelled from the spec: a new entry enters the block-tree index, unless it
is there already ("must tolerate ... duplicate submissions"). -/
def AddToBlockIndex (m : List CBlockIndex) (e : CBlockIndex) : List CBlockIndex :=
  if e ∈ m then m else m ++ [e]

/-- Modelled from the spec: a chain arrives: its blocks enter the index from
the oldest to the newest, then `ActivateBestChain` runs. -/
def ProcessNewChain (fConnects : CBlockIndex → Bool) (st : ChainState) (chainTip : CBlockIndex) :
    ChainState :=
  ActivateBestChain fConnects
    { st with mapBlockIndex := chainTip.Ancestors.reverse.foldl AddToBlockIndex st.mapBlockIndex }

/-- Example: the genesis block. -/
def exampleGenesis : CBlockIndex := .genesis 0 1

/-- Example: chain A, two blocks on the genesis block, cumulative work 7. -/
def exampleChainA : CBlockIndex := .block 12 (.block 11 exampleGenesis 1 3) 2 7

/-- Example: chain B, two blocks on the genesis block, cumulative work 5. -/
def exampleChainB : CBlockIndex := .block 22 (.block 21 exampleGenesis 1 2) 2 5

/-- Example: the controller knows the genesis block only. -/
def exampleChainState : ChainState :=
  { mapBlockIndex := [exampleGenesis], setFailed := [], tip := some exampleGenesis }

/-! ## Mempool admission (main.h, lines 276-278 and 544-554; spec §4.3) -/

/-- The constant `REJECT_ALREADY_KNOWN` of main.h, line 552. -/
def REJECT_ALREADY_KNOWN : Nat := 0x101

/-- Modelled from the spec: a mempool entry, "an accepted-but-unconfirmed
transaction plus derived metadata (fee, size, ...)" (`CTxMemPoolEntry` is
declared in txmempool.h, which is not among the sources). -/
structure CTxMemPoolEntry where
  tx : CTransaction
  nFee : Nat
  nTxSize : Nat
  deriving DecidableEq, Repr

/-- Modelled from the spec: the reason carried by `Rejected(reason)`, one per
check of the acceptance state machine of spec §4.3. -/
inductive RejectReason where
  | INVALID
  | NONFINAL
  | ALREADY_KNOWN
  | NONSTANDARD
  | INSUFFICIENT_FEE
  | TOO_LONG_CHAIN
  | CONFLICT
  deriving DecidableEq, Repr

/-- The reject code of a reason, for the reasons whose code main.h declares
(lines 551-554); the other codes are declared in a header that is not among
the sources. -/
def RejectReason.nRejectCode : RejectReason → Option Nat
  | .ALREADY_KNOWN => some REJECT_ALREADY_KNOWN
  | .CONFLICT => some REJECT_CONFLICT
  | _ => none

/-- Outcome of `AcceptToMemoryPool`: accepted, with the pool as it then is;
inputs missing (`*pfMissingInputs`, "an orphan pending future inputs, not a
hard rejection"); or rejected with a reason. -/
inductive MempoolResult where
  | Accepted (pool : List CTxMemPoolEntry)
  | MissingInputs
  | Rejected (reason : RejectReason)
  deriving DecidableEq, Repr

/-- The configuration and the policy functions mempool admission consults.
The functions stand for code that is not among the sources: finality
(`CheckFinalTx`, main.h:363, body absent), standardness, serialized size,
the minimum relay fee for a size, and the ancestor/descendant limits. The
last three fields are the replace-by-fee policy: the switch (`fEnableReplacement`,
main.h:150), the "policy-defined increment" and the "bounded replacement
count". -/
structure MempoolPolicy where
  IsFinalTx : CTransaction → Bool
  fRequireStandard : Bool
  IsStandardTx : CTransaction → Bool
  GetTxSize : CTransaction → Nat
  GetMinRelayFee : Nat → Nat
  WithinChainLimits : List CTxMemPoolEntry → CTransaction → Bool
  fEnableReplacement : Bool
  nReplacementIncrement : Nat
  nMaxReplacements : Nat

/-- Modelled from the spec: structural validity, "non-empty input/output
lists, ... no duplicate inputs" (`CheckTransaction`, main.h:348, body absent;
the value-range check needs a constant that is not among the sources). -/
def CheckTransaction (tx : CTransaction) : Bool :=
  !tx.vin.isEmpty && !tx.vout.isEmpty && decide (tx.vin.map CTxIn.prevout).Nodup

/-- The value of the output an input spends: a coin of the UTXO view, or
else an output of a pooled transaction. -/
def ResolveInput (view : CCoinsViewCache) (pool : List CTxMemPoolEntry) (o : COutPoint) :
    Option Nat :=
  match view.GetCoin o with
  | some c => some c.nValue
  | none =>
    match pool.find? (fun e => e.tx.hash == o.hash) with
    | some e => (e.tx.vout[o.n]?).map CTxOut.nValue
    | none => none

/-- Sum of the values of the outputs the inputs spend, `none` when one of
them cannot be resolved. -/
def GetValueIn (view : CCoinsViewCache) (pool : List CTxMemPoolEntry) :
    List CTxIn → Option Nat
  | [] => some 0
  | txin :: rest =>
    match ResolveInput view pool txin.prevout, GetValueIn view pool rest with
    | some v, some s => some (v + s)
    | _, _ => none

/-- The pooled transactions that spend an outpoint the candidate spends. -/
def GetConflicts (pool : List CTxMemPoolEntry) (tx : CTransaction) : List CTxMemPoolEntry :=
  pool.filter (fun e => e.tx.vin.any (fun i => tx.vin.any (fun j => j.prevout == i.prevout)))

/-- Modelled from the spec: the checks of spec §4.3 that come before the
conflict check, "performed in order": structure, finality, already in the pool
or in the chain, inputs present, standardness (skipped when enforcement is
off), outputs not above inputs, fee against the minimum relay threshold, and
the ancestor/descendant limits. `Sum.inl` is the outcome of the first check
that stops the candidate; `Sum.inr` is the fee of a candidate that passed them
all. The rate-limited allowance for free transactions is not modelled. -/
def PreConflictChecks (policy : MempoolPolicy) (view : CCoinsViewCache)
    (pool : List CTxMemPoolEntry) (tx : CTransaction) : MempoolResult ⊕ Nat :=
  if CheckTransaction tx = false then .inl (.Rejected .INVALID)
  else if policy.IsFinalTx tx = false then .inl (.Rejected .NONFINAL)
  else if pool.any (fun e => e.tx.hash == tx.hash) = true then
    .inl (.Rejected .ALREADY_KNOWN)
  else if (List.range tx.vout.length).any
      (fun n => (view.GetCoin ⟨tx.hash, n⟩).isSome) = true then
    .inl (.Rejected .ALREADY_KNOWN)
  else
    match GetValueIn view pool tx.vin with
    | none => .inl .MissingInputs
    | some nValueIn =>
      if policy.fRequireStandard = true ∧ policy.IsStandardTx tx = false then
        .inl (.Rejected .NONSTANDARD)
      else if nValueIn < tx.GetValueOut then .inl (.Rejected .INVALID)
      else if nValueIn - tx.GetValueOut < policy.GetMinRelayFee (policy.GetTxSize tx) then
        .inl (.Rejected .INSUFFICIENT_FEE)
      else if policy.WithinChainLimits pool tx = false then
        .inl (.Rejected .TOO_LONG_CHAIN)
      else .inr (nValueIn - tx.GetValueOut)

/-- Modelled from the spec: whether the replace-by-fee rules authorize the
eviction of the conflicting set: replacement is enabled; against every
conflicting transaction the candidate's fee is "strictly higher", and higher
"by at least the policy-defined increment" (the first test is what is left of
the second when the increment is 0), and its feerate (fee over size, compared
exactly by cross-multiplication) is at least as high; the "replacement count"
is bounded; and there are "no new unconfirmed dependencies": an input of the
candidate is a coin of the UTXO view or an outpoint a conflicting transaction
spends. -/
def ReplacementAllowed (policy : MempoolPolicy) (view : CCoinsViewCache)
    (conflicts : List CTxMemPoolEntry) (tx : CTransaction) (nFee : Nat) : Bool :=
  policy.fEnableReplacement &&
  conflicts.all (fun c =>
    decide (c.nFee < nFee) &&
    decide (c.nFee + policy.nReplacementIncrement ≤ nFee) &&
    decide (c.nFee * policy.GetTxSize tx ≤ nFee * c.nTxSize)) &&
  decide (conflicts.length ≤ policy.nMaxReplacements) &&
  tx.vin.all (fun j =>
    (view.GetCoin j.prevout).isSome ||
    conflicts.any (fun c => c.tx.vin.any (fun i => i.prevout == j.prevout)))

/-- The script checks of a candidate: one per input whose coin is in the
UTXO view. -/
def MempoolScriptChecks (view : CCoinsViewCache) (tx : CTransaction) :
    Nat → List CTxIn → List CScriptCheck
  | _, [] => []
  | nIn, txin :: rest =>
    match view.GetCoin txin.prevout with
    | some c => ⟨c.scriptPubKey, tx, nIn, 0, true⟩ :: MempoolScriptChecks view tx (nIn + 1) rest
    | none => MempoolScriptChecks view tx (nIn + 1) rest

/-- Modelled from the spec: `AcceptToMemoryPool` (declared at main.h:277, body
in main.cpp, which is not among the sources), after the state machine of spec
§4.3. The checks before the conflict check run first; then "no UTXO conflict
with another pooled transaction's inputs unless replace-by-fee rules authorize
eviction of the conflicting set", a failure being rejected with `Conflict`;
"only on passing all checks does the Script Verifier run". On acceptance the
conflicting set leaves the pool and the candidate enters it. A rejection
hands back no pool: it is "side-effect-free on the UTXO view and pool". -/
def AcceptToMemoryPool (policy : MempoolPolicy) (VerifyScript : CScriptCheck → Bool)
    (view : CCoinsViewCache) (pool : List CTxMemPoolEntry) (tx : CTransaction) :
    MempoolResult :=
  match PreConflictChecks policy view pool tx with
  | .inl r => r
  | .inr nFee =>
    if (GetConflicts pool tx).isEmpty = false ∧
        ReplacementAllowed policy view (GetConflicts pool tx) tx nFee = false then
      .Rejected .CONFLICT
    else if (MempoolScriptChecks view tx 0 tx.vin).all VerifyScript = false then
      .Rejected .INVALID
    else
      .Accepted (pool.filter (fun e => decide (e ∉ GetConflicts pool tx)) ++
        [⟨tx, nFee, policy.GetTxSize tx⟩])

/-- Example policy: everything final and standard, 100 bytes per input and
output, no fee floor, no chain limit, replacement enabled with increment 1. -/
def examplePolicy : MempoolPolicy :=
  { IsFinalTx := fun _ => true, fRequireStandard := true, IsStandardTx := fun _ => true,
    GetTxSize := fun tx => 100 * (tx.vin.length + tx.vout.length),
    GetMinRelayFee := fun _ => 0, WithinChainLimits := fun _ _ => true,
    fEnableReplacement := true, nReplacementIncrement := 1, nMaxReplacements := 100 }

/-- Example policy: as `examplePolicy`, with the increment set to 0. -/
def examplePolicyNoIncrement : MempoolPolicy :=
  { examplePolicy with nReplacementIncrement := 0 }

/-- Example pooled transaction T1: spends coin (1,0), worth 10, into outputs
of 7 and 2; fee 1, size 300. -/
def examplePooled : CTxMemPoolEntry :=
  { tx := ⟨101, [⟨⟨1, 0⟩, 7⟩], [⟨7, 4⟩, ⟨2, 5⟩]⟩, nFee := 1, nTxSize := 300 }

/-- Example candidate spending coin (1,0) too, with fee 1 and size 300: the fee
and the feerate of T1. -/
def exampleLowFee : CTransaction := ⟨111, [⟨⟨1, 0⟩, 7⟩], [⟨7, 4⟩, ⟨2, 6⟩]⟩

/-- Example candidate spending coin (1,0) too, with fee 4 and size 200. -/
def exampleHighFee : CTransaction := ⟨112, [⟨⟨1, 0⟩, 7⟩], [⟨6, 4⟩]⟩

/-! ## Pruning target, reject codes (main.h, lines 171-179 and 544-554) -/

/-- The constant `MIN_DISK_SPACE_FOR_BLOCK_FILES` of main.h, line 179. -/
def MIN_DISK_SPACE_FOR_BLOCK_FILES : Nat := 550 * 1024 * 1024

/-- The constant `REJECT_INTERNAL` of main.h, line 548. -/
def REJECT_INTERNAL : Nat := 0x100

/-- The constant `REJECT_HIGHFEE` of main.h, line 550. -/
def REJECT_HIGHFEE : Nat := 0x100

/-! ## `CMerkleTx` (wallet.h, lines 157-218) -/

/-- The class `CMerkleTx`: the transaction it extends, the hash of the block
that holds it (a `uint256`, here its numeric value, zero exactly when
`IsNull()`), and its index in that block. -/
structure CMerkleTx where
  tx : CTransaction
  hashBlock : Nat
  nIndex : Int
  deriving DecidableEq, Repr

namespace CMerkleTx

/-- The method `Init` (wallet.h:184-188): `hashBlock = uint256()`, `nIndex = -1`. -/
def Init (m : CMerkleTx) : CMerkleTx :=
  { m with hashBlock := 0, nIndex := -1 }

/-- The method `hashUnset` (wallet.h:215). The constant `ABANDON_HASH` is
declared at wallet.h:162 and defined in a file that is not among the sources:
it is a parameter. -/
def hashUnset (ABANDON_HASH : Nat) (m : CMerkleTx) : Bool :=
  m.hashBlock == 0 || m.hashBlock == ABANDON_HASH

/-- The method `isAbandoned` (wallet.h:216). -/
def isAbandoned (ABANDON_HASH : Nat) (m : CMerkleTx) : Bool :=
  m.hashBlock == ABANDON_HASH

/-- The method `setAbandoned` (wallet.h:217). -/
def setAbandoned (ABANDON_HASH : Nat) (m : CMerkleTx) : CMerkleTx :=
  { m with hashBlock := ABANDON_HASH }

end CMerkleTx

/-! ## `mapValue_t`, `ReadOrderPos`, `WriteOrderPos` (wallet.h, lines 129-148) -/

/-- The type `mapValue_t` (wallet.h:129), a `std::map<std::string, std::string>`,
as a list of (key, value) entries. The operations below keep at most one
entry per key when the list had at most one; the order of the entries stands
for nothing. -/
abbrev mapValue_t := List (String × String)

/-- The value stored under a key, if any (`find`). -/
def MapFind (k : String) : mapValue_t → Option String
  | [] => none
  | (a, b) :: rest => if a = k then some b else MapFind k rest

/-- The member `count(k)` of the map: 1 when the key is present, else 0. -/
def MapCount (k : String) (m : mapValue_t) : Nat :=
  if (MapFind k m).isSome then 1 else 0

/-- The member `erase(k)` of the map. -/
def MapErase (k : String) (m : mapValue_t) : mapValue_t :=
  m.filter (fun e => decide (e.1 ≠ k))

/-- The assignment `m[k] = v`. -/
def MapAssign (k v : String) (m : mapValue_t) : mapValue_t :=
  (k, v) :: MapErase k m

/-- Reading `m[k]`: the value under the key and the map afterwards;
`operator[]` inserts an empty string under a key that is absent. -/
def MapIndex (k : String) (m : mapValue_t) : String × mapValue_t :=
  match MapFind k m with
  | some v => (v, m)
  | none => ("", MapAssign k "" m)

/-- Least value of an `int64_t`. -/
def INT64_MIN : Int := -(2 ^ 63)

/-- Greatest value of an `int64_t`. -/
def INT64_MAX : Int := 2 ^ 63 - 1

/-- The function `ReadOrderPos` (wallet.h:132-140); the result is the new
`nOrderPos` and the map afterwards. The conversion `atoi64` is declared in a
header that is not among the sources: it is a parameter. -/
def ReadOrderPos (atoi64 : String → Int) (mapValue : mapValue_t) : Int × mapValue_t :=
  if MapCount "n" mapValue = 0 then (-1, mapValue)
  else (atoi64 (MapIndex "n" mapValue).1, (MapIndex "n" mapValue).2)

/-- The function `WriteOrderPos` (wallet.h:143-148); the result is the map
afterwards. The conversion `i64tostr` is declared in a header that is not
among the sources: it is a parameter. -/
def WriteOrderPos (i64tostr : Int → String) (nOrderPos : Int) (mapValue : mapValue_t) :
    mapValue_t :=
  if nOrderPos = -1 then mapValue
  else MapAssign "n" (i64tostr nOrderPos) mapValue

/-! ### Decimal conversions : an instance of the absent helpers -/

/-- The character of a decimal digit. -/
def DigitChar : Nat → Char
  | 0 => '0' | 1 => '1' | 2 => '2' | 3 => '3' | 4 => '4'
  | 5 => '5' | 6 => '6' | 7 => '7' | 8 => '8' | _ => '9'

/-- The decimal digit a character stands for, if it is one. -/
def CharDigit (c : Char) : Option Nat :=
  if c = '0' then some 0 else if c = '1' then some 1 else if c = '2' then some 2
  else if c = '3' then some 3 else if c = '4' then some 4 else if c = '5' then some 5
  else if c = '6' then some 6 else if c = '7' then some 7 else if c = '8' then some 8
  else if c = '9' then some 9 else none

/-- The decimal number at the head of a list of characters, added to
`acc` shifted left; reading stops at the first character that is not a digit. -/
def ParseDigits : List Char → Nat → Nat
  | [], acc => acc
  | c :: rest, acc =>
    match CharDigit c with
    | some d => ParseDigits rest (acc * 10 + d)
    | none => acc

/-- The decimal digits of a number, least significant first; `fuel` bounds the
number of digits produced, and the number itself is always enough. -/
def DecimalDigits : Nat → Nat → List Nat
  | 0, _ => []
  | fuel + 1, n => if n = 0 then [] else (n % 10) :: DecimalDigits fuel (n / 10)

/-- The decimal digits of a natural number, most significant first. -/
def NatToChars (n : Nat) : List Char :=
  if n = 0 then [DigitChar 0] else (DecimalDigits n n).reverse.map DigitChar

/-- White space as the C library sees it: space, and the characters 9 to 13. -/
def IsSpace (c : Char) : Bool :=
  decide (c.toNat = 32) || (decide (9 ≤ c.toNat) && decide (c.toNat ≤ 13))

/-- Decimal printing of a signed number (what `%d` prints): an instance of
`i64tostr`. -/
def i64tostrDecimal (x : Int) : String :=
  if x < 0 then String.mk ('-' :: NatToChars (-x).toNat) else String.mk (NatToChars x.toNat)

/-- Decimal printing of an unsigned number (what `%u` prints). -/
def utostrDecimal (n : Nat) : String :=
  String.mk (NatToChars n)

/-- Decimal parsing as `strtoll` does it in base 10: leading white space
is skipped, a sign is honoured, digits are read up to the first other
character, and a value out of range saturates: an instance of `atoi64`. -/
def atoi64Decimal (s : String) : Int :=
  match s.data.dropWhile IsSpace with
  | [] => 0
  | c :: rest =>
    if c = '-' then max (-(ParseDigits rest 0 : Int)) INT64_MIN
    else if c = '+' then min (ParseDigits rest 0 : Int) INT64_MAX
    else min (ParseDigits (c :: rest) 0 : Int) INT64_MAX

/-! ## `CWalletTx::SerializationOp` (wallet.h, lines 224-352) -/

/-- The whole state of a `CWalletTx` object: the `CMerkleTx` it extends, the
wallet it is bound to (`none` for `NULL`), the persisted members, and the
memory-only caches (the structure `CWalletTx` above). `fFromMe` is a `char`,
the three time members are `unsigned int`, `nOrderPos` is an `int64_t`. -/
structure CWalletTxState where
  merkle : CMerkleTx
  pwallet : Option Nat
  mapValue : mapValue_t
  vOrderForm : List (String × String)
  fTimeReceivedIsTxTime : Nat
  nTimeReceived : Nat
  nTimeSmart : Nat
  fFromMe : Nat
  strFromAccount : String
  nOrderPos : Int
  cache : CWalletTx
  deriving DecidableEq, Repr

/-- What `SerializationOp` moves through the stream, in the order of its
`READWRITE` lines (wallet.h:328-336). -/
structure CWalletTxRecord where
  merkle : CMerkleTx
  vUnused : List CMerkleTx
  mapValue : mapValue_t
  vOrderForm : List (String × String)
  fTimeReceivedIsTxTime : Nat
  nTimeReceived : Nat
  fFromMe : Nat
  fSpent : Nat
  deriving DecidableEq, Repr

namespace CWalletTxState

/-- The method `CWalletTx::Init(pwalletIn)` (wallet.h:279-308) on the whole
object: every member of `CWalletTx` is reset, the caches through
`CWalletTx.Init`; the `CMerkleTx` part is not touched. -/
def Init (w : CWalletTxState) (pwalletIn : Option Nat) : CWalletTxState :=
  { merkle := w.merkle, pwallet := pwalletIn, mapValue := [], vOrderForm := [],
    fTimeReceivedIsTxTime := 0, nTimeReceived := 0, nTimeSmart := 0, fFromMe := 0,
    strFromAccount := "", nOrderPos := -1, cache := CWalletTx.Init }

/-- The five `erase` calls that end `SerializationOp` (wallet.h:347-351). -/
def EraseReserved (m : mapValue_t) : mapValue_t :=
  MapErase "timesmart" (MapErase "n" (MapErase "spent" (MapErase "version"
    (MapErase "fromaccount" m))))

/-- The method `SerializationOp` (wallet.h:312-352), for both directions.
`fForRead` is `ser_action.ForRead()`; `s` is the record on the stream, which a
write replaces and a read consumes; the result is the record on the stream
afterwards and the object afterwards. The conversions `atoi64`, `i64tostr`
and the `%u` case of `strprintf` are declared in headers that are not among the
sources: they are parameters. The cast `(unsigned int)` reduces modulo
`2^32`. -/
def SerializationOp (atoi64 : String → Int) (i64tostr : Int → String)
    (strprintf_u : Nat → String) (fForRead : Bool) (s : CWalletTxRecord)
    (w : CWalletTxState) : CWalletTxRecord × CWalletTxState :=
  let w0 := if fForRead = true then w.Init none else w
  let fSpent : Nat := 0
  let w1 :=
    if fForRead = false then
      let m1 := MapAssign "fromaccount" w0.strFromAccount w0.mapValue
      let m2 := WriteOrderPos i64tostr w0.nOrderPos m1
      let m3 := if w0.nTimeSmart ≠ 0 then MapAssign "timesmart" (strprintf_u w0.nTimeSmart) m2
                else m2
      { w0 with mapValue := m3 }
    else w0
  let s1 : CWalletTxRecord :=
    if fForRead = true then s
    else ⟨w1.merkle, [], w1.mapValue, w1.vOrderForm, w1.fTimeReceivedIsTxTime,
          w1.nTimeReceived, w1.fFromMe, fSpent⟩
  let w2 :=
    if fForRead = true then
      { w1 with merkle := s.merkle, mapValue := s.mapValue, vOrderForm := s.vOrderForm,
                fTimeReceivedIsTxTime := s.fTimeReceivedIsTxTime,
                nTimeReceived := s.nTimeReceived, fFromMe := s.fFromMe }
    else w1
  let w3 :=
    if fForRead = true then
      let r1 := MapIndex "fromaccount" w2.mapValue
      let r2 := ReadOrderPos atoi64 r1.2
      let nTimeSmart :=
        if MapCount "timesmart" r2.2 ≠ 0 then
          ((atoi64 (MapIndex "timesmart" r2.2).1) % (2 ^ 32 : Int)).toNat
        else 0
      let m3 := if MapCount "timesmart" r2.2 ≠ 0 then (MapIndex "timesmart" r2.2).2 else r2.2
      { w2 with strFromAccount := r1.1, nOrderPos := r2.1, nTimeSmart := nTimeSmart,
                mapValue := m3 }
    else w2
  (s1, { w3 with mapValue := EraseReserved w3.mapValue })

/-- The five reserved keys of `mapValue`. -/
def ReservedKeys : List String := ["fromaccount", "version", "spent", "n", "timesmart"]

end CWalletTxState

/-- Example: a wallet transaction from account "savings", at position 17 of
the ordered list, with smart time 1450000000 and two entries in its value map,
one of them under the reserved key "version". -/
def exampleWalletTx : CWalletTxState :=
  { merkle := ⟨⟨101, [⟨⟨1, 0⟩, 7⟩], [⟨7, 4⟩, ⟨2, 5⟩]⟩, 901, 1⟩, pwallet := some 1,
    mapValue := [("comment", "rent"), ("version", "1")], vOrderForm := [],
    fTimeReceivedIsTxTime := 0, nTimeReceived := 1450000100, nTimeSmart := 1450000000,
    fFromMe := 1, strFromAccount := "savings", nOrderPos := 17, cache := CWalletTx.Init }

/-- Example: an empty record, as a stream that has not been written yet. -/
def exampleEmptyRecord : CWalletTxRecord :=
  ⟨⟨⟨0, [], []⟩, 0, -1⟩, [], [], [], 0, 0, 0, 0⟩

/-! # Properties

Everything below is a theorem about the definitions above.
-/

/-! ## Block-file statistics -/

namespace CBlockFileInfo

theorem AddBlock_nBlocks (f : CBlockFileInfo) (h t : Nat) :
    (f.AddBlock h t).nBlocks = (f.nBlocks + 1) % UINT_RANGE := by
  unfold AddBlock
  dsimp only
  split_ifs <;> rfl

theorem AddBlock_nHeightFirst (f : CBlockFileInfo) (h t : Nat) :
    (f.AddBlock h t).nHeightFirst =
      if f.nBlocks = 0 ∨ f.nHeightFirst > h then h else f.nHeightFirst := by
  unfold AddBlock
  dsimp only
  split_ifs <;> rfl

theorem AddBlock_nHeightLast (f : CBlockFileInfo) (h t : Nat) :
    (f.AddBlock h t).nHeightLast = if h > f.nHeightLast then h else f.nHeightLast := by
  unfold AddBlock
  dsimp only
  split_ifs <;> rfl

/-- Once a file holds a block, further `AddBlock` calls keep the height range
equal to the running minimum and maximum, as long as the counter does not wrap. -/
theorem AddBlocks_running (l : List (Nat × Nat)) :
    ∀ f : CBlockFileInfo, 0 < f.nBlocks → f.nBlocks + l.length < UINT_RANGE →
      (f.AddBlocks l).nBlocks = f.nBlocks + l.length ∧
      (f.AddBlocks l).nHeightFirst = l.foldl (fun m p => min m p.1) f.nHeightFirst ∧
      (f.AddBlocks l).nHeightLast = l.foldl (fun m p => max m p.1) f.nHeightLast := by
  induction l with
  | nil => intro f _ _; exact ⟨rfl, rfl, rfl⟩
  | cons p l ih =>
    intro f hpos hlen
    simp only [List.length_cons] at hlen
    have hnb : (f.AddBlock p.1 p.2).nBlocks = f.nBlocks + 1 := by
      rw [AddBlock_nBlocks]; exact Nat.mod_eq_of_lt (by omega)
    have h := ih (f.AddBlock p.1 p.2) (by omega) (by omega)
    have hF : (f.AddBlock p.1 p.2).nHeightFirst = min f.nHeightFirst p.1 := by
      rw [AddBlock_nHeightFirst]
      split_ifs with hc
      · rcases hc with hc | hc
        · omega
        · exact (Nat.min_eq_right (Nat.le_of_lt hc)).symm
      · exact (Nat.min_eq_left (by omega)).symm
    have hL : (f.AddBlock p.1 p.2).nHeightLast = max f.nHeightLast p.1 := by
      rw [AddBlock_nHeightLast]
      split_ifs with hc
      · exact (Nat.max_eq_right (Nat.le_of_lt hc)).symm
      · exact (Nat.max_eq_left (by omega)).symm
    simp only [AddBlocks, List.foldl_cons, List.length_cons] at h ⊢
    rw [hnb, hF, hL] at h
    refine ⟨by omega, h.2.1, h.2.2⟩

theorem foldl_min_spec (l : List (Nat × Nat)) :
    ∀ m : Nat, (l.foldl (fun m p => min m p.1) m = m ∨
        l.foldl (fun m p => min m p.1) m ∈ l.map Prod.fst) ∧
      l.foldl (fun m p => min m p.1) m ≤ m ∧
      ∀ h ∈ l.map Prod.fst, l.foldl (fun m p => min m p.1) m ≤ h := by
  induction l with
  | nil => intro m; simp
  | cons p l ih =>
    intro m
    obtain ⟨h1, h2, h3⟩ := ih (min m p.1)
    simp only [List.foldl_cons, List.map_cons, List.mem_cons]
    refine ⟨?_, ?_, ?_⟩
    · rcases h1 with h1 | h1
      · rw [h1]
        rcases Nat.le_total m p.1 with hle | hle
        · left; exact Nat.min_eq_left hle
        · right; left; exact Nat.min_eq_right hle
      · right; right; exact h1
    · exact Nat.le_trans h2 (Nat.min_le_left _ _)
    · intro h hh
      rcases hh with hh | hh
      · rw [hh]; exact Nat.le_trans h2 (Nat.min_le_right _ _)
      · exact h3 h hh

theorem foldl_max_spec (l : List (Nat × Nat)) :
    ∀ m : Nat, (l.foldl (fun m p => max m p.1) m = m ∨
        l.foldl (fun m p => max m p.1) m ∈ l.map Prod.fst) ∧
      m ≤ l.foldl (fun m p => max m p.1) m ∧
      ∀ h ∈ l.map Prod.fst, h ≤ l.foldl (fun m p => max m p.1) m := by
  induction l with
  | nil => intro m; simp
  | cons p l ih =>
    intro m
    obtain ⟨h1, h2, h3⟩ := ih (max m p.1)
    simp only [List.foldl_cons, List.map_cons, List.mem_cons]
    refine ⟨?_, ?_, ?_⟩
    · rcases h1 with h1 | h1
      · rw [h1]
        rcases Nat.le_total m p.1 with hle | hle
        · right; left; exact Nat.max_eq_right hle
        · left; exact Nat.max_eq_left hle
      · right; right; exact h1
    · exact Nat.le_trans (Nat.le_max_left _ _) h2
    · intro h hh
      rcases hh with hh | hh
      · rw [hh]; exact Nat.le_trans (Nat.le_max_right _ _) h2
      · exact h3 h hh

/-- The statistics a fresh `CBlockFileInfo` holds after a non-empty run of
`AddBlock` calls that does not wrap the counter. -/
theorem AddBlocks_SetNull (l : List (Nat × Nat)) (hne : l ≠ []) (hlen : l.length < UINT_RANGE) :
    (SetNull.AddBlocks l).nBlocks = l.length ∧
    ((SetNull.AddBlocks l).nHeightFirst ∈ l.map Prod.fst ∧
      ∀ h ∈ l.map Prod.fst, (SetNull.AddBlocks l).nHeightFirst ≤ h) ∧
    ((SetNull.AddBlocks l).nHeightLast ∈ l.map Prod.fst ∧
      ∀ h ∈ l.map Prod.fst, h ≤ (SetNull.AddBlocks l).nHeightLast) := by
  cases l with
  | nil => exact absurd rfl hne
  | cons p l =>
    simp only [List.length_cons] at hlen
    have h1 : (SetNull.AddBlock p.1 p.2).nBlocks = 1 := by
      rw [AddBlock_nBlocks]; rfl
    have hF : (SetNull.AddBlock p.1 p.2).nHeightFirst = p.1 := by
      rw [AddBlock_nHeightFirst]; simp [SetNull]
    have hL : (SetNull.AddBlock p.1 p.2).nHeightLast = p.1 := by
      rw [AddBlock_nHeightLast]
      simp only [SetNull]
      split_ifs with hc
      · rfl
      · omega
    have h := AddBlocks_running l (SetNull.AddBlock p.1 p.2) (by omega) (by omega)
    rw [h1, hF, hL] at h
    obtain ⟨hn, hmin, hmax⟩ := h
    obtain ⟨a1, a2, a3⟩ := foldl_min_spec l p.1
    obtain ⟨b1, b2, b3⟩ := foldl_max_spec l p.1
    have e : SetNull.AddBlocks (p :: l) = (SetNull.AddBlock p.1 p.2).AddBlocks l := rfl
    rw [e, hn, hmin, hmax]
    simp only [List.length_cons, List.map_cons, List.mem_cons]
    refine ⟨by omega, ⟨?_, ?_⟩, ⟨?_, ?_⟩⟩
    · rcases a1 with a1 | a1
      · left; exact a1
      · right; exact a1
    · intro h hh
      rcases hh with hh | hh
      · rw [hh]; exact a2
      · exact a3 h hh
    · rcases b1 with b1 | b1
      · left; exact b1
      · right; exact b1
    · intro h hh
      rcases hh with hh | hh
      · rw [hh]; exact b2
      · exact b3 h hh

end CBlockFileInfo

/-- C1. Starting from a freshly constructed `CBlockFileInfo`, adding the
blocks of any non-empty list of fewer than `2^32` (height, time) pairs leaves
`nBlocks` equal to the number of blocks, `nHeightFirst` equal to the least of
the heights and `nHeightLast` equal to the greatest; the three values are the
same for every reordering of the list. -/
theorem C1_AddBlock_height_range (l : List (Nat × Nat)) (hne : l ≠ [])
    (hlen : l.length < 2 ^ 32) :
    ((CBlockFileInfo.SetNull.AddBlocks l).nBlocks = l.length ∧
      ((CBlockFileInfo.SetNull.AddBlocks l).nHeightFirst ∈ l.map Prod.fst ∧
        ∀ h ∈ l.map Prod.fst, (CBlockFileInfo.SetNull.AddBlocks l).nHeightFirst ≤ h) ∧
      ((CBlockFileInfo.SetNull.AddBlocks l).nHeightLast ∈ l.map Prod.fst ∧
        ∀ h ∈ l.map Prod.fst, h ≤ (CBlockFileInfo.SetNull.AddBlocks l).nHeightLast)) ∧
    ∀ l2 : List (Nat × Nat), l2.Perm l →
      (CBlockFileInfo.SetNull.AddBlocks l2).nBlocks =
          (CBlockFileInfo.SetNull.AddBlocks l).nBlocks ∧
        (CBlockFileInfo.SetNull.AddBlocks l2).nHeightFirst =
          (CBlockFileInfo.SetNull.AddBlocks l).nHeightFirst ∧
        (CBlockFileInfo.SetNull.AddBlocks l2).nHeightLast =
          (CBlockFileInfo.SetNull.AddBlocks l).nHeightLast := by
  have H := CBlockFileInfo.AddBlocks_SetNull l hne hlen
  refine ⟨H, ?_⟩
  intro l2 hp
  have hne2 : l2 ≠ [] := by
    intro h0
    rw [h0] at hp
    exact hne (List.Perm.nil_eq hp).symm
  have hlen2 : l2.length < 2 ^ 32 := by rw [hp.length_eq]; exact hlen
  have H2 := CBlockFileInfo.AddBlocks_SetNull l2 hne2 hlen2
  have hm : ∀ x, x ∈ l2.map Prod.fst ↔ x ∈ l.map Prod.fst :=
    fun x => (hp.map Prod.fst).mem_iff
  obtain ⟨n1, ⟨f1, f2⟩, ⟨g1, g2⟩⟩ := H
  obtain ⟨n2, ⟨p1, p2⟩, ⟨q1, q2⟩⟩ := H2
  refine ⟨by rw [n1, n2, hp.length_eq], ?_, ?_⟩
  · exact Nat.le_antisymm (p2 _ ((hm _).2 f1)) (f2 _ ((hm _).1 p1))
  · exact Nat.le_antisymm (g2 _ ((hm _).1 q1)) (q2 _ ((hm _).2 g1))

/-- Witness for C1: three blocks added out of height order. -/
theorem C1_AddBlock_height_range_witness :
    ((CBlockFileInfo.SetNull.AddBlocks [(7, 30), (3, 10), (5, 20)]).nBlocks = 3 ∧
      (CBlockFileInfo.SetNull.AddBlocks [(7, 30), (3, 10), (5, 20)]).nHeightFirst = 3 ∧
      (CBlockFileInfo.SetNull.AddBlocks [(7, 30), (3, 10), (5, 20)]).nHeightLast = 7) ∧
    (CBlockFileInfo.SetNull.AddBlocks [(7, 30), (3, 10), (5, 20)]).nBlocks =
      [(7, 30), (3, 10), (5, 20)].length :=
  ⟨by decide,
   (C1_AddBlock_height_range [(7, 30), (3, 10), (5, 20)] (by decide) (by decide)).1.1⟩

/-- C2. Evaluation of `MarkDirty` on a wallet transaction whose immature
credit is cached: the flag `fImmatureCreditCached` is still set afterwards, so
not all nine cache-valid flags are false, although the other eight are and
`Init` clears all nine. -/
theorem C2_MarkDirty_keeps_fImmatureCreditCached :
    (CWalletTx.MarkDirty CWalletTx.immatureCached).fImmatureCreditCached = true ∧
    (CWalletTx.MarkDirty CWalletTx.immatureCached).allFlagsClear = false ∧
    CWalletTx.Init.allFlagsClear = true ∧
    (∀ w : CWalletTx,
      (w.MarkDirty).fImmatureCreditCached = w.fImmatureCreditCached ∧
      (w.MarkDirty).fDebitCached = false ∧ (w.MarkDirty).fCreditCached = false ∧
      (w.MarkDirty).fAvailableCreditCached = false ∧ (w.MarkDirty).fWatchDebitCached = false ∧
      (w.MarkDirty).fWatchCreditCached = false ∧
      (w.MarkDirty).fImmatureWatchCreditCached = false ∧
      (w.MarkDirty).fAvailableWatchCreditCached = false ∧
      (w.MarkDirty).fChangeCached = false) :=
  ⟨rfl, rfl, rfl, fun _ => ⟨rfl, rfl, rfl, rfl, rfl, rfl, rfl, rfl, rfl⟩⟩

/-- C10. `AddBlock` leaves `nSize` and `nUndoSize` as they were, for every
state and every (height, time) argument. -/
theorem C10_AddBlock_keeps_sizes (f : CBlockFileInfo) (nHeightIn nTimeIn : Nat) :
    (f.AddBlock nHeightIn nTimeIn).nSize = f.nSize ∧
    (f.AddBlock nHeightIn nTimeIn).nUndoSize = f.nUndoSize := by
  unfold CBlockFileInfo.AddBlock
  dsimp only
  split_ifs <;> exact ⟨rfl, rfl⟩

/-! ## Pruning -/

theorem FindFilesToPruneScan_sound (nTipHeight nPruneTarget : Nat)
    (l : List CBlockFileInfo) :
    ∀ (fileNumber nCurrentUsage n : Nat),
      n ∈ FindFilesToPruneScan nTipHeight nPruneTarget fileNumber nCurrentUsage l →
      fileNumber ≤ n ∧
        ∃ f, l[n - fileNumber]? = some f ∧ f.nHeightLast + MIN_BLOCKS_TO_KEEP < nTipHeight := by
  induction l with
  | nil => intro k u n h; simp [FindFilesToPruneScan] at h
  | cons f rest ih =>
    intro k u n h
    unfold FindFilesToPruneScan at h
    split_ifs at h with h1 h2
    · simp at h
    · rcases List.mem_cons.1 h with h | h
      · subst h
        exact ⟨Nat.le_refl _, f, by simp, h2⟩
      · obtain ⟨hle, g, hg, hgl⟩ := ih _ _ _ h
        refine ⟨by omega, g, ?_, hgl⟩
        have e : n - k = (n - (k + 1)) + 1 := by omega
        rw [e, List.getElem?_cons_succ]
        exact hg
    · obtain ⟨hle, g, hg, hgl⟩ := ih _ _ _ h
      refine ⟨by omega, g, ?_, hgl⟩
      have e : n - k = (n - (k + 1)) + 1 := by omega
      rw [e, List.getElem?_cons_succ]
      exact hg

/-- C3. Every file index that `FindFilesToPrune` returns names a file of the
table whose height range `[nHeightFirst, nHeightLast]` contains no height of
the retention window `[tip − MIN_BLOCKS_TO_KEEP, tip]`, with
`MIN_BLOCKS_TO_KEEP = 288`. -/
theorem C3_FindFilesToPrune_outside_window (vinfoBlockFile : List CBlockFileInfo)
    (tip : Option Nat) (nPruneTarget nPruneAfterHeight fileNumber : Nat)
    (hmem : fileNumber ∈ FindFilesToPrune vinfoBlockFile tip nPruneTarget nPruneAfterHeight) :
    MIN_BLOCKS_TO_KEEP = 288 ∧
    ∃ (nTipHeight : Nat) (f : CBlockFileInfo), tip = some nTipHeight ∧ vinfoBlockFile[fileNumber]? = some f ∧
      ∀ h : Nat, f.nHeightFirst ≤ h → h ≤ f.nHeightLast →
        ¬ ((nTipHeight : Int) - (MIN_BLOCKS_TO_KEEP : Int) ≤ (h : Int) ∧ h ≤ nTipHeight) := by
  refine ⟨rfl, ?_⟩
  cases tip with
  | none => simp [FindFilesToPrune] at hmem
  | some t =>
    unfold FindFilesToPrune at hmem
    dsimp only at hmem
    split_ifs at hmem with h1 h2
    · simp at hmem
    · simp at hmem
    · obtain ⟨_, f, hf, hlast⟩ := FindFilesToPruneScan_sound _ _ _ _ _ _ hmem
      refine ⟨t, f, rfl, by simpa using hf, ?_⟩
      intro h _ hle hwin
      have := hwin.1
      omega

/-- Witness for C3: with tip height 1000, file 0 (heights 0..400) is marked
and lies outside the window 712..1000. -/
theorem C3_FindFilesToPrune_outside_window_witness :
    FindFilesToPrune pruneExampleTable (some 1000) 200 100 = [0] ∧
    (MIN_BLOCKS_TO_KEEP = 288 ∧
     ∃ (nTipHeight : Nat) (f : CBlockFileInfo), some 1000 = some nTipHeight ∧ pruneExampleTable[0]? = some f ∧
      ∀ h : Nat, f.nHeightFirst ≤ h → h ≤ f.nHeightLast →
        ¬ ((nTipHeight : Int) - (MIN_BLOCKS_TO_KEEP : Int) ≤ (h : Int) ∧ h ≤ nTipHeight)) :=
  ⟨by decide, C3_FindFilesToPrune_outside_window pruneExampleTable (some 1000) 200 100 0
    (by decide)⟩

/-! ## UTXO view layer -/

namespace CCoinsViewCache

theorem GetCoin_SpendCoin (v : CCoinsViewCache) (o p : COutPoint) :
    (v.SpendCoin o).GetCoin p = if o = p then none else v.GetCoin p := by
  by_cases h : o = p <;> simp [GetCoin, SpendCoin, FetchCoin, h]

theorem GetCoin_PutCoin (v : CCoinsViewCache) (o p : COutPoint) (c : Coin) :
    (v.PutCoin o c).GetCoin p = if o = p then some c else v.GetCoin p := by
  by_cases h : o = p <;> simp [GetCoin, PutCoin, FetchCoin, h]

theorem GetCoin_SetBestBlock (v : CCoinsViewCache) (h : Nat) (p : COutPoint) :
    (v.SetBestBlock h).GetCoin p = v.GetCoin p := rfl

theorem AddCoin_eq_some {v v1 : CCoinsViewCache} {o : COutPoint} {c : Coin}
    (h : v.AddCoin o c false = some v1) : v.GetCoin o = none ∧ v1 = v.PutCoin o c := by
  unfold AddCoin at h
  split_ifs at h with hc
  · simp only [true_and, Bool.not_eq_true, Option.not_isSome, Option.isNone_iff_eq_none] at hc
    exact ⟨hc, (Option.some.inj h).symm⟩

end CCoinsViewCache

theorem FetchCoin_append (o : COutPoint) (a b : List (COutPoint × Option Coin)) :
    FetchCoin o (a ++ b) =
      match FetchCoin o a with
      | some e => some e
      | none => FetchCoin o b := by
  induction a with
  | nil => simp [FetchCoin]
  | cons x a ih =>
    obtain ⟨k, e⟩ := x
    by_cases h : k = o
    · simp [FetchCoin, h]
    · simp [FetchCoin, h, ih]

/-- Flushing a child into the parent it was opened over makes the parent
answer as the child did. -/
theorem GetCoin_Flush (child parent : CCoinsViewCache) (hbase : child.base = parent.GetCoin)
    (o : COutPoint) : (child.Flush parent).GetCoin o = child.GetCoin o := by
  simp only [CCoinsViewCache.GetCoin, CCoinsViewCache.Flush, FetchCoin_append]
  cases h : FetchCoin o child.cacheCoins with
  | some e => rfl
  | none =>
    simp only [hbase, CCoinsViewCache.GetCoin]

/-! ## Connecting a block : structure of a successful run -/

theorem SpendInputs_cons_some {v v2 : CCoinsViewCache} {vSpent vSpent2 : List COutPoint}
    {txin : CTxIn} {rest : List CTxIn} {coins : List Coin}
    (h : SpendInputs v vSpent (txin :: rest) = some (v2, vSpent2, coins)) :
    txin.prevout ∉ vSpent ∧
    ∃ c cs, v.GetCoin txin.prevout = some c ∧ coins = c :: cs ∧
      SpendInputs (v.SpendCoin txin.prevout) (txin.prevout :: vSpent) rest =
        some (v2, vSpent2, cs) := by
  unfold SpendInputs at h
  split_ifs at h with hmem
  refine ⟨hmem, ?_⟩
  cases hc : v.GetCoin txin.prevout with
  | none => rw [hc] at h; simp at h
  | some c =>
    rw [hc] at h
    dsimp only at h
    cases hr : SpendInputs (v.SpendCoin txin.prevout) (txin.prevout :: vSpent) rest with
    | none => rw [hr] at h; simp at h
    | some r =>
      obtain ⟨a, b, cs⟩ := r
      rw [hr] at h
      simp only [Option.some.injEq, Prod.mk.injEq] at h
      obtain ⟨h1, h2, h3⟩ := h
      subst h1 h2 h3
      exact ⟨c, cs, rfl, rfl, rfl⟩

theorem AddOutputs_cons_some {hash nHeight : Nat} {fCoinBase : Bool}
    {v v2 : CCoinsViewCache} {n : Nat} {out : CTxOut} {rest : List CTxOut}
    (h : AddOutputs hash nHeight fCoinBase v n (out :: rest) = some v2) :
    v.GetCoin ⟨hash, n⟩ = none ∧
    AddOutputs hash nHeight fCoinBase
      (v.PutCoin ⟨hash, n⟩ ⟨out.nValue, out.scriptPubKey, nHeight, fCoinBase⟩) (n + 1) rest =
        some v2 := by
  unfold AddOutputs at h
  cases ha : v.AddCoin ⟨hash, n⟩ ⟨out.nValue, out.scriptPubKey, nHeight, fCoinBase⟩ false with
  | none => rw [ha] at h; simp at h
  | some v1 =>
    rw [ha] at h
    obtain ⟨h1, h2⟩ := CCoinsViewCache.AddCoin_eq_some ha
    subst h2
    exact ⟨h1, h⟩

theorem ConnectTx_some {nHeight nFlags : Nat} {st st2 : ConnectState} {tx : CTransaction}
    (h : ConnectTx nHeight nFlags st tx = some st2) :
    ∃ v1 coins, SpendInputs st.view st.vSpent tx.vin = some (v1, st2.vSpent, coins) ∧
      AddOutputs tx.hash nHeight false v1 0 tx.vout = some st2.view ∧
      tx.GetValueOut ≤ (coins.map Coin.nValue).sum ∧
      st2.nFees = st.nFees + ((coins.map Coin.nValue).sum - tx.GetValueOut) ∧
      st2.vChecks = st.vChecks ++ QueueChecks tx nFlags 0 coins ∧
      st2.blockundo = st.blockundo ++ [coins] := by
  unfold ConnectTx at h
  cases hs : SpendInputs st.view st.vSpent tx.vin with
  | none => rw [hs] at h; simp at h
  | some r =>
    obtain ⟨v1, sp1, coins⟩ := r
    rw [hs] at h
    dsimp only at h
    split_ifs at h with hlt
    cases ha : AddOutputs tx.hash nHeight false v1 0 tx.vout with
    | none => rw [ha] at h; simp at h
    | some v2 =>
      rw [ha] at h
      simp only [Option.some.injEq] at h
      subst h
      exact ⟨v1, coins, rfl, ha, Nat.le_of_not_lt hlt, rfl, rfl, rfl⟩

theorem ConnectTxs_cons_some {nHeight nFlags : Nat} {st st2 : ConnectState}
    {tx : CTransaction} {rest : List CTransaction}
    (h : ConnectTxs nHeight nFlags st (tx :: rest) = some st2) :
    ∃ st1, ConnectTx nHeight nFlags st tx = some st1 ∧
      ConnectTxs nHeight nFlags st1 rest = some st2 := by
  unfold ConnectTxs at h
  cases hc : ConnectTx nHeight nFlags st tx with
  | none => rw [hc] at h; simp at h
  | some st1 => rw [hc] at h; exact ⟨st1, rfl, h⟩

theorem ConnectLoop_some {view : CCoinsViewCache} {nHeight nFlags : Nat} {cb : CTransaction}
    {txs : List CTransaction} {st : ConnectState}
    (h : ConnectLoop view nHeight nFlags cb txs = some st) :
    ∃ v1, AddOutputs cb.hash nHeight true view.Child 0 cb.vout = some v1 ∧
      ConnectTxs nHeight nFlags
        { view := v1, vSpent := [], nFees := 0, vChecks := [], blockundo := [] } txs =
          some st := by
  unfold ConnectLoop at h
  cases ha : AddOutputs cb.hash nHeight true view.Child 0 cb.vout with
  | none => rw [ha] at h; simp at h
  | some v1 => rw [ha] at h; exact ⟨v1, rfl, h⟩

/-! ## No outpoint is spent twice in a connected block -/

theorem SpendInputs_vSpent (ins : List CTxIn) :
    ∀ (v v2 : CCoinsViewCache) (vSpent vSpent2 : List COutPoint) (coins : List Coin),
      SpendInputs v vSpent ins = some (v2, vSpent2, coins) →
      vSpent2 = (ins.map CTxIn.prevout).reverse ++ vSpent ∧
      (vSpent.Nodup → vSpent2.Nodup) := by
  induction ins with
  | nil =>
    intro v v2 sp sp2 coins h
    simp only [SpendInputs, Option.some.injEq, Prod.mk.injEq] at h
    obtain ⟨_, h2, _⟩ := h
    subst h2
    exact ⟨by simp, fun hn => hn⟩
  | cons txin rest ih =>
    intro v v2 sp sp2 coins h
    obtain ⟨hmem, c, cs, _, _, hrest⟩ := SpendInputs_cons_some h
    obtain ⟨e, hn⟩ := ih _ _ _ _ _ hrest
    refine ⟨by rw [e]; simp, fun hsp => hn (List.nodup_cons.2 ⟨hmem, hsp⟩)⟩

theorem ConnectTxs_vSpent (nHeight nFlags : Nat) (txs : List CTransaction) :
    ∀ st st2 : ConnectState, ConnectTxs nHeight nFlags st txs = some st2 →
      st2.vSpent = (AllPrevouts txs).reverse ++ st.vSpent ∧
      (st.vSpent.Nodup → st2.vSpent.Nodup) := by
  induction txs with
  | nil =>
    intro st st2 h
    simp only [ConnectTxs, Option.some.injEq] at h
    subst h
    exact ⟨by simp [AllPrevouts], fun hn => hn⟩
  | cons tx rest ih =>
    intro st st2 h
    obtain ⟨st1, h1, h2⟩ := ConnectTxs_cons_some h
    obtain ⟨v1, coins, hsp, _⟩ := ConnectTx_some h1
    obtain ⟨e1, n1⟩ := SpendInputs_vSpent _ _ _ _ _ _ hsp
    obtain ⟨e2, n2⟩ := ih _ _ h2
    refine ⟨?_, fun hn => n2 (n1 hn)⟩
    rw [e2, e1]
    simp [AllPrevouts]

/-- A block body whose connect loop succeeds spends pairwise distinct outpoints. -/
theorem ConnectLoop_nodup {view : CCoinsViewCache} {nHeight nFlags : Nat} {cb : CTransaction}
    {txs : List CTransaction} {st : ConnectState}
    (h : ConnectLoop view nHeight nFlags cb txs = some st) : (AllPrevouts txs).Nodup := by
  obtain ⟨v1, _, h2⟩ := ConnectLoop_some h
  obtain ⟨e, hn⟩ := ConnectTxs_vSpent _ _ _ _ _ h2
  have := hn List.nodup_nil
  rw [e] at this
  simp only [List.append_nil] at this
  exact List.nodup_reverse.1 this

/-- C5. A block in which two inputs of its (non-coinbase) transactions
reference the same outpoint is rejected by `ConnectBlock` with an `Invalid`
state, in either mode, and the view is handed back exactly as it was
received: no Coin is mutated. -/
theorem C5_ConnectBlock_rejects_double_spend (GetBlockSubsidy : Nat → Nat)
    (VerifyScript : CScriptCheck → Bool) (nFlags : Nat) (block : CBlock) (nHeight : Nat)
    (view : CCoinsViewCache) (fJustCheck : Bool)
    (hdup : ¬ (AllPrevouts block.vtx.tail).Nodup) :
    (ConnectBlock GetBlockSubsidy VerifyScript nFlags block nHeight view fJustCheck).mode =
        ValidationMode.MODE_INVALID ∧
    (ConnectBlock GetBlockSubsidy VerifyScript nFlags block nHeight view fJustCheck).view =
        view := by
  unfold ConnectBlock
  cases hv : block.vtx with
  | nil => exact ⟨rfl, rfl⟩
  | cons cb txs =>
    dsimp only
    cases hl : ConnectLoop view nHeight nFlags cb txs with
    | none => exact ⟨rfl, rfl⟩
    | some st =>
      rw [hv] at hdup
      exact absurd (ConnectLoop_nodup hl) hdup

/-- Witness for C5: the example block whose two transactions spend coin (1,0). -/
theorem C5_ConnectBlock_rejects_double_spend_witness :
    (ConnectBlock exampleSubsidy exampleVerify 0 exampleDoubleSpend 1 exampleView false).mode =
        ValidationMode.MODE_INVALID ∧
    (ConnectBlock exampleSubsidy exampleVerify 0 exampleDoubleSpend 1 exampleView false).view =
        exampleView :=
  C5_ConnectBlock_rejects_double_spend exampleSubsidy exampleVerify 0 exampleDoubleSpend 1
    exampleView false (by decide)

/-- C6. For a block at height `nHeight` whose transactions connect with
collected fees `nFees` and pass their script checks, `ConnectBlock` accepts
the block when the coinbase pays exactly `GetBlockSubsidy nHeight + nFees`, and
rejects it as `Invalid`, leaving the view as it was, when the coinbase pays
anything greater (`+ 1` included). -/
theorem C6_ConnectBlock_coinbase_payout (GetBlockSubsidy : Nat → Nat)
    (VerifyScript : CScriptCheck → Bool) (nFlags hash hashPrevBlock : Nat)
    (cb : CTransaction) (txs : List CTransaction) (nHeight : Nat) (view : CCoinsViewCache)
    (fJustCheck : Bool) (nFees : Nat)
    (hfees : (ConnectLoop view nHeight nFlags cb txs).map ConnectState.nFees = some nFees)
    (hscripts : (ConnectLoop view nHeight nFlags cb txs).map
        (fun st => st.vChecks.all VerifyScript) = some true) :
    (cb.GetValueOut = GetBlockSubsidy nHeight + nFees →
      (ConnectBlock GetBlockSubsidy VerifyScript nFlags ⟨hash, hashPrevBlock, cb :: txs⟩
        nHeight view fJustCheck).mode = ValidationMode.MODE_VALID) ∧
    (GetBlockSubsidy nHeight + nFees < cb.GetValueOut →
      (ConnectBlock GetBlockSubsidy VerifyScript nFlags ⟨hash, hashPrevBlock, cb :: txs⟩
        nHeight view fJustCheck).mode = ValidationMode.MODE_INVALID ∧
      (ConnectBlock GetBlockSubsidy VerifyScript nFlags ⟨hash, hashPrevBlock, cb :: txs⟩
        nHeight view fJustCheck).view = view) := by
  cases hl : ConnectLoop view nHeight nFlags cb txs with
  | none => rw [hl] at hfees; simp at hfees
  | some st =>
    rw [hl] at hfees hscripts
    simp only [Option.map_some', Option.some.injEq] at hfees hscripts
    unfold ConnectBlock
    dsimp only
    rw [hl]
    dsimp only
    rw [hscripts, hfees]
    constructor
    · intro hpay
      have hnot : ¬ cb.GetValueOut > GetBlockSubsidy nHeight + nFees := by omega
      cases fJustCheck <;> simp [hnot]
    · intro hpay
      have hgt : cb.GetValueOut > GetBlockSubsidy nHeight + nFees := hpay
      simp [hgt]

/-- Witness for C6: at subsidy 50 and fees 1 the example block paying 51 is
accepted and the one paying 52 is rejected. -/
theorem C6_ConnectBlock_coinbase_payout_witness :
    (ConnectBlock exampleSubsidy exampleVerify 0 exampleBlock1 1 exampleView false).mode =
        ValidationMode.MODE_VALID ∧
    (ConnectBlock exampleSubsidy exampleVerify 0 exampleBlock1Overpaid 1 exampleView false).mode =
        ValidationMode.MODE_INVALID :=
  ⟨(C6_ConnectBlock_coinbase_payout exampleSubsidy exampleVerify 0 901 900
      ⟨100, [], [⟨51, 3⟩]⟩ [⟨101, [⟨⟨1, 0⟩, 7⟩], [⟨7, 4⟩, ⟨2, 5⟩]⟩] 1 exampleView false 1
      (by decide) (by decide)).1 (by decide),
   ((C6_ConnectBlock_coinbase_payout exampleSubsidy exampleVerify 0 901 900
      ⟨100, [], [⟨52, 3⟩]⟩ [⟨101, [⟨⟨1, 0⟩, 7⟩], [⟨7, 4⟩, ⟨2, 5⟩]⟩] 1 exampleView false 1
      (by decide) (by decide)).2 (by decide)).1⟩

/-! ## Disconnecting undoes connecting -/

theorem RemoveOutputs_AddOutputs (hash nHeight : Nat) (fCoinBase : Bool) (outs : List CTxOut) :
    ∀ (v v2 : CCoinsViewCache) (n : Nat),
      AddOutputs hash nHeight fCoinBase v n outs = some v2 →
      ∀ w : CCoinsViewCache, SameCoins w v2 →
        (RemoveOutputs hash nHeight fCoinBase w n outs).1 = true ∧
        SameCoins (RemoveOutputs hash nHeight fCoinBase w n outs).2 v := by
  induction outs with
  | nil =>
    intro v v2 n h w hw
    simp only [AddOutputs, Option.some.injEq] at h
    subst h
    exact ⟨rfl, hw⟩
  | cons out rest ih =>
    intro v v2 n h w hw
    obtain ⟨hfree, hrest⟩ := AddOutputs_cons_some h
    obtain ⟨hok, hsame⟩ := ih _ _ _ hrest w hw
    have hat : (RemoveOutputs hash nHeight fCoinBase w (n + 1) rest).2.GetCoin ⟨hash, n⟩ =
        some ⟨out.nValue, out.scriptPubKey, nHeight, fCoinBase⟩ := by
      rw [hsame, CCoinsViewCache.GetCoin_PutCoin]; simp
    refine ⟨?_, ?_⟩
    · simp only [RemoveOutputs, hok, hat, decide_True, Bool.and_self]
    · intro o
      simp only [RemoveOutputs]
      rw [CCoinsViewCache.GetCoin_SpendCoin, hsame, CCoinsViewCache.GetCoin_PutCoin]
      by_cases e : (⟨hash, n⟩ : COutPoint) = o
      · rw [if_pos e, ← e, hfree]
      · rw [if_neg e, if_neg e]

theorem RestoreInputs_SpendInputs (ins : List CTxIn) :
    ∀ (v v2 : CCoinsViewCache) (vSpent vSpent2 : List COutPoint) (coins : List Coin),
      SpendInputs v vSpent ins = some (v2, vSpent2, coins) →
      ∀ w : CCoinsViewCache, SameCoins w v2 →
        (RestoreInputs w ins coins).1 = true ∧ SameCoins (RestoreInputs w ins coins).2 v := by
  induction ins with
  | nil =>
    intro v v2 sp sp2 coins h w hw
    simp only [SpendInputs, Option.some.injEq, Prod.mk.injEq] at h
    obtain ⟨h1, _, h3⟩ := h
    subst h1 h3
    exact ⟨rfl, hw⟩
  | cons txin rest ih =>
    intro v v2 sp sp2 coins h w hw
    obtain ⟨_, c, cs, hc, hcoins, hrest⟩ := SpendInputs_cons_some h
    subst hcoins
    obtain ⟨hok, hsame⟩ := ih _ _ _ _ _ hrest w hw
    have hat : (RestoreInputs w rest cs).2.GetCoin txin.prevout = none := by
      rw [hsame, CCoinsViewCache.GetCoin_SpendCoin]; simp
    refine ⟨?_, ?_⟩
    · simp only [RestoreInputs, hok, hat, Option.isNone_none, Bool.and_self]
    · intro o
      simp only [RestoreInputs]
      rw [CCoinsViewCache.GetCoin_PutCoin, hsame, CCoinsViewCache.GetCoin_SpendCoin]
      by_cases e : txin.prevout = o
      · rw [if_pos e, ← e, hc]
      · rw [if_neg e, if_neg e]

theorem DisconnectTxs_ConnectTxs (nHeight nFlags : Nat) (txs : List CTransaction) :
    ∀ st st2 : ConnectState, ConnectTxs nHeight nFlags st txs = some st2 →
      ∃ undos, st2.blockundo = st.blockundo ++ undos ∧
        ∀ w : CCoinsViewCache, SameCoins w st2.view →
          (DisconnectTxs nHeight w txs undos).1 = true ∧
          SameCoins (DisconnectTxs nHeight w txs undos).2 st.view := by
  induction txs with
  | nil =>
    intro st st2 h
    simp only [ConnectTxs, Option.some.injEq] at h
    subst h
    exact ⟨[], by simp, fun w hw => ⟨rfl, hw⟩⟩
  | cons tx rest ih =>
    intro st st2 h
    obtain ⟨st1, h1, h2⟩ := ConnectTxs_cons_some h
    obtain ⟨v1, coins, hsp, hadd, _, _, _, hundo⟩ := ConnectTx_some h1
    obtain ⟨undos, hu, hrt⟩ := ih _ _ h2
    refine ⟨coins :: undos, by rw [hu, hundo]; simp, ?_⟩
    intro w hw
    obtain ⟨k1, s1⟩ := hrt w hw
    obtain ⟨k2, s2⟩ := RemoveOutputs_AddOutputs _ _ _ _ _ _ _ hadd _ s1
    obtain ⟨k3, s3⟩ := RestoreInputs_SpendInputs _ _ _ _ _ _ hsp _ s2
    exact ⟨by simp only [DisconnectTxs, k1, k2, k3, Bool.and_self], s3⟩

theorem SpendInputs_base (ins : List CTxIn) :
    ∀ (v v2 : CCoinsViewCache) (vSpent vSpent2 : List COutPoint) (coins : List Coin),
      SpendInputs v vSpent ins = some (v2, vSpent2, coins) → v2.base = v.base := by
  induction ins with
  | nil =>
    intro v v2 sp sp2 coins h
    simp only [SpendInputs, Option.some.injEq, Prod.mk.injEq] at h
    rw [← h.1]
  | cons txin rest ih =>
    intro v v2 sp sp2 coins h
    obtain ⟨_, c, cs, _, _, hrest⟩ := SpendInputs_cons_some h
    exact (ih _ _ _ _ _ hrest).trans rfl

theorem AddOutputs_base (hash nHeight : Nat) (fCoinBase : Bool) (outs : List CTxOut) :
    ∀ (v v2 : CCoinsViewCache) (n : Nat),
      AddOutputs hash nHeight fCoinBase v n outs = some v2 → v2.base = v.base := by
  induction outs with
  | nil =>
    intro v v2 n h
    simp only [AddOutputs, Option.some.injEq] at h
    rw [h]
  | cons out rest ih =>
    intro v v2 n h
    obtain ⟨_, hrest⟩ := AddOutputs_cons_some h
    exact (ih _ _ _ hrest).trans rfl

theorem ConnectTxs_base (nHeight nFlags : Nat) (txs : List CTransaction) :
    ∀ st st2 : ConnectState, ConnectTxs nHeight nFlags st txs = some st2 →
      st2.view.base = st.view.base := by
  induction txs with
  | nil =>
    intro st st2 h
    simp only [ConnectTxs, Option.some.injEq] at h
    rw [h]
  | cons tx rest ih =>
    intro st st2 h
    obtain ⟨st1, h1, h2⟩ := ConnectTxs_cons_some h
    obtain ⟨v1, coins, hsp, hadd, _⟩ := ConnectTx_some h1
    rw [ih _ _ h2, AddOutputs_base _ _ _ _ _ _ _ hadd, SpendInputs_base _ _ _ _ _ _ hsp]

/-- What an accepted, committed `ConnectBlock` hands back. -/
theorem ConnectBlock_valid {GetBlockSubsidy : Nat → Nat} {VerifyScript : CScriptCheck → Bool}
    {nFlags : Nat} {block : CBlock} {nHeight : Nat} {view : CCoinsViewCache}
    (h : (ConnectBlock GetBlockSubsidy VerifyScript nFlags block nHeight view false).mode =
      ValidationMode.MODE_VALID) :
    ∃ cb txs st, block.vtx = cb :: txs ∧ ConnectLoop view nHeight nFlags cb txs = some st ∧
      (ConnectBlock GetBlockSubsidy VerifyScript nFlags block nHeight view false).view =
        (st.view.SetBestBlock block.hash).Flush view ∧
      (ConnectBlock GetBlockSubsidy VerifyScript nFlags block nHeight view false).blockundo =
        st.blockundo := by
  unfold ConnectBlock at h ⊢
  cases hv : block.vtx with
  | nil => rw [hv] at h; simp at h
  | cons cb txs =>
    rw [hv] at h
    dsimp only at h ⊢
    cases hl : ConnectLoop view nHeight nFlags cb txs with
    | none => rw [hl] at h; simp at h
    | some st =>
      rw [hl] at h
      dsimp only at h ⊢
      refine ⟨cb, txs, st, rfl, hl, ?_⟩
      split_ifs at h ⊢ with c1 c2 <;> simp_all

/-- One block: disconnecting right after connecting restores the coins and
moves the best-block marker to the parent of the block. -/
theorem DisconnectBlock_ConnectBlock {GetBlockSubsidy : Nat → Nat}
    {VerifyScript : CScriptCheck → Bool} {nFlags : Nat} {block : CBlock} {nHeight : Nat}
    {view : CCoinsViewCache}
    (h : (ConnectBlock GetBlockSubsidy VerifyScript nFlags block nHeight view false).mode =
      ValidationMode.MODE_VALID)
    (w : CCoinsViewCache)
    (hw : SameCoins w
      (ConnectBlock GetBlockSubsidy VerifyScript nFlags block nHeight view false).view) :
    (DisconnectBlock block nHeight
      (ConnectBlock GetBlockSubsidy VerifyScript nFlags block nHeight view false).blockundo
      w).1 = true ∧
    SameCoins (DisconnectBlock block nHeight
      (ConnectBlock GetBlockSubsidy VerifyScript nFlags block nHeight view false).blockundo
      w).2 view ∧
    (DisconnectBlock block nHeight
      (ConnectBlock GetBlockSubsidy VerifyScript nFlags block nHeight view false).blockundo
      w).2.hashBlock = block.hashPrevBlock := by
  obtain ⟨cb, txs, st, hv, hl, hview, hundo⟩ := ConnectBlock_valid h
  rw [hview] at hw
  rw [hundo]
  obtain ⟨v1, hadd, htxs⟩ := ConnectLoop_some hl
  obtain ⟨undos, hu, hrt⟩ := DisconnectTxs_ConnectTxs _ _ _ _ _ htxs
  simp only [List.nil_append] at hu
  have hbase : (st.view.SetBestBlock block.hash).base = view.GetCoin := by
    show st.view.base = view.GetCoin
    rw [ConnectTxs_base _ _ _ _ _ htxs]
    exact AddOutputs_base _ _ _ _ _ _ _ hadd
  have hw2 : SameCoins w st.view := by
    intro o
    rw [hw o, GetCoin_Flush _ _ hbase]
    rfl
  obtain ⟨k1, s1⟩ := hrt w hw2
  obtain ⟨k2, s2⟩ := RemoveOutputs_AddOutputs _ _ _ _ _ _ _ hadd _ s1
  unfold DisconnectBlock
  rw [hv, hu]
  dsimp only
  refine ⟨by rw [k1, k2]; rfl, ?_, rfl⟩
  intro o
  rw [CCoinsViewCache.GetCoin_SetBestBlock, s2 o]
  rfl

theorem DisconnectBlocks_ConnectBlocks (GetBlockSubsidy : Nat → Nat)
    (VerifyScript : CScriptCheck → Bool) (nFlags : Nat) (blocks : List CBlock) :
    ∀ (view view2 : CCoinsViewCache) (nHeight : Nat) (undos : List (List (List Coin))),
      IsChainOnTop view.hashBlock blocks = true →
      ConnectBlocks GetBlockSubsidy VerifyScript nFlags view nHeight blocks =
        some (view2, undos) →
      ∀ w : CCoinsViewCache, SameCoins w view2 → w.hashBlock = view2.hashBlock →
        (DisconnectBlocks w nHeight blocks undos).1 = true ∧
        SameCoins (DisconnectBlocks w nHeight blocks undos).2 view ∧
        (DisconnectBlocks w nHeight blocks undos).2.hashBlock = view.hashBlock := by
  induction blocks with
  | nil =>
    intro view view2 nHeight undos _ h w hw hb
    simp only [ConnectBlocks, Option.some.injEq, Prod.mk.injEq] at h
    obtain ⟨h1, _⟩ := h
    subst h1
    exact ⟨rfl, hw, hb⟩
  | cons b rest ih =>
    intro view view2 nHeight undos hchain h w hw hb
    simp only [IsChainOnTop, Bool.and_eq_true, decide_eq_true_eq] at hchain
    obtain ⟨hprev, hchain2⟩ := hchain
    unfold ConnectBlocks at h
    dsimp only at h
    split_ifs at h with hmode
    cases hr : ConnectBlocks GetBlockSubsidy VerifyScript nFlags
        (ConnectBlock GetBlockSubsidy VerifyScript nFlags b nHeight view false).view
        (nHeight + 1) rest with
    | none => rw [hr] at h; simp at h
    | some r =>
      obtain ⟨v3, us⟩ := r
      rw [hr] at h
      simp only [Option.some.injEq, Prod.mk.injEq] at h
      obtain ⟨h1, h2⟩ := h
      subst h1 h2
      obtain ⟨cb, txs, st, hv, hl, hview, hundo⟩ := ConnectBlock_valid hmode
      have hbest : (ConnectBlock GetBlockSubsidy VerifyScript nFlags b nHeight view
          false).view.hashBlock = b.hash := by rw [hview]; rfl
      rw [← hbest] at hchain2
      obtain ⟨k1, s1, b1⟩ := ih _ _ _ _ hchain2 hr w hw hb
      obtain ⟨k2, s2, b2⟩ := DisconnectBlock_ConnectBlock hmode _ s1
      refine ⟨?_, s2, ?_⟩
      · simp only [DisconnectBlocks, k1, k2, Bool.and_self]
      · simp only [DisconnectBlocks]
        rw [b2, hprev]

/-- C4. When the blocks B1..Bn, a chain on top of the best block of a UTXO
view, are connected in turn with `ConnectBlock` and all accepted, then
disconnecting them with `DisconnectBlock` in reverse order, each with the undo
data recorded when it was connected, is clean and leaves a view that answers
`GetCoin` on every outpoint as the view before B1 did, with the same
best-block marker. -/
theorem C4_connect_disconnect_round_trip (GetBlockSubsidy : Nat → Nat)
    (VerifyScript : CScriptCheck → Bool) (nFlags : Nat) (blocks : List CBlock)
    (view view2 : CCoinsViewCache) (nHeight : Nat) (undos : List (List (List Coin)))
    (hchain : IsChainOnTop view.hashBlock blocks = true)
    (hconnect : ConnectBlocks GetBlockSubsidy VerifyScript nFlags view nHeight blocks =
      some (view2, undos)) :
    (DisconnectBlocks view2 nHeight blocks undos).1 = true ∧
    (∀ o : COutPoint,
      (DisconnectBlocks view2 nHeight blocks undos).2.GetCoin o = view.GetCoin o) ∧
    (DisconnectBlocks view2 nHeight blocks undos).2.hashBlock = view.hashBlock :=
  DisconnectBlocks_ConnectBlocks GetBlockSubsidy VerifyScript nFlags blocks view view2 nHeight
    undos hchain hconnect view2 (fun _ => rfl) rfl

/-- Witness for C4: blocks 901 and 902 of the example, connected and then
disconnected. -/
theorem C4_connect_disconnect_round_trip_witness :
    (DisconnectBlocks exampleViewAfter 1 [exampleBlock1, exampleBlock2] exampleUndos).1 = true ∧
    (DisconnectBlocks exampleViewAfter 1 [exampleBlock1, exampleBlock2] exampleUndos).2.GetCoin
      ⟨1, 0⟩ = some ⟨10, 7, 0, false⟩ ∧
    (DisconnectBlocks exampleViewAfter 1 [exampleBlock1, exampleBlock2] exampleUndos).2.hashBlock
      = 900 :=
  have h := C4_connect_disconnect_round_trip exampleSubsidy exampleVerify 0
    [exampleBlock1, exampleBlock2] exampleView exampleViewAfter 1 exampleUndos (by decide) rfl
  ⟨h.1, h.2.1 ⟨1, 0⟩, h.2.2⟩

/-! ## Parallel script verification -/

theorem WorkerLoop_eq (VerifyScript : CScriptCheck → Bool) (l : List CScriptCheck) :
    ∀ fOk : Bool, WorkerLoop VerifyScript fOk l = (fOk && l.all VerifyScript) := by
  induction l with
  | nil => intro fOk; simp [WorkerLoop]
  | cons c rest ih =>
    intro fOk
    rw [WorkerLoop, ih]
    cases fOk <;> simp [CScriptCheck.Call]

theorem RunParallel_fold (VerifyScript : CScriptCheck → Bool)
    (batches : List (List CScriptCheck)) :
    ∀ fAllOk : Bool,
      batches.foldl (fun fAllOk batch => fAllOk && WorkerLoop VerifyScript true batch) fAllOk =
        (fAllOk && batches.flatten.all VerifyScript) := by
  induction batches with
  | nil => intro b; simp
  | cons batch rest ih =>
    intro b
    rw [List.foldl_cons, ih, WorkerLoop_eq]
    simp [Bool.and_assoc]

theorem all_perm (VerifyScript : CScriptCheck → Bool) {l1 l2 : List CScriptCheck}
    (h : l1.Perm l2) : l1.all VerifyScript = l2.all VerifyScript := by
  rw [Bool.eq_iff_iff, List.all_eq_true, List.all_eq_true]
  exact ⟨fun h1 x hx => h1 x (h.mem_iff.2 hx), fun h2 x hx => h2 x (h.mem_iff.1 hx)⟩

/-- C9. For every list of script checks, however the checks are distributed
over the script-check workers (`batches` flattens to a permutation of the
list) and in whatever order a single thread runs them (`order` is a
permutation of the list), the parallel run and the sequential run give the
same accept/reject result, which is the logical AND of the individual
results. -/
theorem C9_parallel_equals_sequential (VerifyScript : CScriptCheck → Bool)
    (vChecks order : List CScriptCheck) (batches : List (List CScriptCheck))
    (hbatches : batches.flatten.Perm vChecks) (horder : order.Perm vChecks) :
    RunParallel VerifyScript batches = RunSequential VerifyScript order ∧
    RunParallel VerifyScript batches = vChecks.all (fun c => c.Call VerifyScript) := by
  have hp : RunParallel VerifyScript batches = vChecks.all VerifyScript := by
    unfold RunParallel
    rw [RunParallel_fold, Bool.true_and]
    exact all_perm VerifyScript hbatches
  have hs : RunSequential VerifyScript order = vChecks.all VerifyScript := by
    unfold RunSequential
    rw [WorkerLoop_eq, Bool.true_and]
    exact all_perm VerifyScript horder
  exact ⟨by rw [hp, hs], hp⟩

/-- Witness for C9: three checks, one of them failing, on two workers. -/
theorem C9_parallel_equals_sequential_witness :
    RunParallel exampleVerify exampleBatches = false ∧
    (RunParallel exampleVerify exampleBatches = RunSequential exampleVerify exampleChecks ∧
     RunParallel exampleVerify exampleBatches =
       exampleChecks.all (fun c => c.Call exampleVerify)) :=
  ⟨by decide,
   C9_parallel_equals_sequential exampleVerify exampleChecks exampleChecks exampleBatches
     (by decide) (List.Perm.refl _)⟩

/-! ## Fork choice -/

theorem CBlockIndex.mem_Ancestors_self (e : CBlockIndex) : e ∈ e.Ancestors := by
  cases e <;> simp [CBlockIndex.Ancestors]

theorem CBlockIndex.work_lt_of_mem_Ancestors (a : CBlockIndex) :
    a.WorkIncreasing = true → ∀ e ∈ a.Ancestors, e = a ∨ e.nChainWork < a.nChainWork := by
  induction a with
  | genesis h w =>
    intro _ e he
    simp only [CBlockIndex.Ancestors, List.mem_singleton] at he
    exact Or.inl he
  | block h p n w ih =>
    intro hw e he
    simp only [CBlockIndex.WorkIncreasing, Bool.and_eq_true, decide_eq_true_eq] at hw
    simp only [CBlockIndex.Ancestors, List.mem_cons] at he
    rcases he with he | he
    · exact Or.inl he
    · right
      show e.nChainWork < w
      rcases ih hw.2 e he with h1 | h1
      · rw [h1]; exact hw.1
      · exact Nat.lt_trans h1 hw.1

theorem foldl_MostWork (a : CBlockIndex) (l : List CBlockIndex) :
    ∀ best : Option CBlockIndex,
      (∀ e ∈ l, e = a ∨ e.nChainWork < a.nChainWork) →
      (best = some a ∨
        ((best = none ∨ ∃ b, best = some b ∧ b.nChainWork < a.nChainWork) ∧ a ∈ l)) →
      l.foldl MostWork best = some a := by
  induction l with
  | nil =>
    intro best _ h
    rcases h with h | ⟨_, h⟩
    · simpa using h
    · simp at h
  | cons x l ih =>
    intro best hall h
    have hx := hall x (List.mem_cons_self _ _)
    have hall2 : ∀ e ∈ l, e = a ∨ e.nChainWork < a.nChainWork :=
      fun e he => hall e (List.mem_cons_of_mem _ he)
    rw [List.foldl_cons]
    apply ih _ hall2
    rcases h with h | ⟨hb, hmem⟩
    · left
      subst h
      rcases hx with hx | hx
      · subst hx; simp [MostWork]
      · simp only [MostWork]
        rw [if_neg (by omega)]
    · rcases hx with hx | hx
      · left
        subst hx
        rcases hb with hb | ⟨b, hb, hlt⟩
        · subst hb; rfl
        · subst hb
          simp only [MostWork]
          rw [if_pos hlt]
      · have hmem2 : a ∈ l := by
          rcases List.mem_cons.1 hmem with e | e
          · subst e; omega
          · exact e
        right
        refine ⟨Or.inr ?_, hmem2⟩
        rcases hb with hb | ⟨b, hb, hlt⟩
        · subst hb; exact ⟨x, rfl, hx⟩
        · subst hb
          simp only [MostWork]
          split_ifs
          · exact ⟨x, rfl, hx⟩
          · exact ⟨b, rfl, hlt⟩

theorem FindMostWorkChain_eq (a : CBlockIndex) (st : ChainState)
    (hmem : a ∈ st.mapBlockIndex) (hnf : a ∉ st.setFailed)
    (hall : ∀ e ∈ st.mapBlockIndex, e = a ∨ e.nChainWork < a.nChainWork) :
    FindMostWorkChain st = some a := by
  unfold FindMostWorkChain
  apply foldl_MostWork
  · intro e he
    exact hall e (List.mem_filter.1 he).1
  · right
    exact ⟨Or.inl rfl, List.mem_filter.2 ⟨hmem, by simpa using hnf⟩⟩

theorem BlocksToConnect_valid (fConnects : CBlockIndex → Bool) (tip : Option CBlockIndex)
    (a : CBlockIndex) (hvalid : ∀ e ∈ a.Ancestors, fConnects e = true) :
    (BlocksToConnect tip a).find? (fun e => !fConnects e) = none := by
  rw [List.find?_eq_none]
  intro x hx
  have hxa : x ∈ a.Ancestors := by
    unfold BlocksToConnect at hx
    cases tip with
    | none => simpa using hx
    | some t =>
      simp only at hx
      exact List.mem_reverse.1 (List.mem_filter.1 hx).1
  simp [hvalid x hxa]

/-- With the strictly most-work entry valid and not marked, one round of the
loop makes it the tip and touches nothing else. -/
theorem ActivateBestChainLoop_picks (fConnects : CBlockIndex → Bool) (a : CBlockIndex)
    (fuel : Nat) (st : ChainState)
    (hmem : a ∈ st.mapBlockIndex) (hnf : a ∉ st.setFailed)
    (hall : ∀ e ∈ st.mapBlockIndex, e = a ∨ e.nChainWork < a.nChainWork)
    (hvalid : ∀ e ∈ a.Ancestors, fConnects e = true) :
    ActivateBestChainLoop fConnects (fuel + 1) st = { st with tip := some a } := by
  unfold ActivateBestChainLoop
  rw [FindMostWorkChain_eq a st hmem hnf hall]
  dsimp only
  split_ifs with ht
  · cases st
    simp only at ht
    subst ht
    rfl
  · rw [BlocksToConnect_valid fConnects st.tip a hvalid]

/-- The loop never changes the index, and marks only entries with a block
that fails to connect on their chain. -/
theorem ActivateBestChainLoop_inv (fConnects : CBlockIndex → Bool) (fuel : Nat) :
    ∀ st : ChainState,
      (ActivateBestChainLoop fConnects fuel st).mapBlockIndex = st.mapBlockIndex ∧
      ∀ e ∈ (ActivateBestChainLoop fConnects fuel st).setFailed,
        e ∈ st.setFailed ∨ ∃ bad ∈ e.Ancestors, fConnects bad = false := by
  induction fuel with
  | zero => intro st; exact ⟨rfl, fun e he => Or.inl he⟩
  | succ fuel ih =>
    intro st
    unfold ActivateBestChainLoop
    cases FindMostWorkChain st with
    | none => exact ⟨rfl, fun e he => Or.inl he⟩
    | some cand =>
      dsimp only
      split_ifs with ht
      · exact ⟨rfl, fun e he => Or.inl he⟩
      · cases hf : (BlocksToConnect st.tip cand).find? (fun e => !fConnects e) with
        | none => exact ⟨rfl, fun e he => Or.inl he⟩
        | some bad =>
          dsimp only
          obtain ⟨i1, i2⟩ := ih (InvalidChainFound st bad)
          refine ⟨i1, ?_⟩
          intro e he
          rcases i2 e he with h1 | h1
          · simp only [InvalidChainFound, List.mem_append, List.mem_filter,
              decide_eq_true_eq] at h1
            rcases h1 with h1 | h1
            · exact Or.inl h1
            · right
              have hb := List.find?_some hf
              exact ⟨bad, h1.2, by simpa using hb⟩
          · exact Or.inr h1

theorem foldl_AddToBlockIndex (l : List CBlockIndex) :
    ∀ m : List CBlockIndex,
      (∀ e ∈ m, e ∈ l.foldl AddToBlockIndex m) ∧
      (∀ e ∈ l, e ∈ l.foldl AddToBlockIndex m) ∧
      (∀ e ∈ l.foldl AddToBlockIndex m, e ∈ m ∨ e ∈ l) := by
  induction l with
  | nil => intro m; simp
  | cons x l ih =>
    intro m
    obtain ⟨h1, h2, h3⟩ := ih (AddToBlockIndex m x)
    have hsub : ∀ e ∈ m, e ∈ AddToBlockIndex m x := by
      intro e he
      unfold AddToBlockIndex
      split_ifs
      · exact he
      · exact List.mem_append_left _ he
    have hx : x ∈ AddToBlockIndex m x := by
      unfold AddToBlockIndex
      split_ifs with hm
      · exact hm
      · simp
    have hback : ∀ e ∈ AddToBlockIndex m x, e ∈ m ∨ e = x := by
      intro e he
      unfold AddToBlockIndex at he
      split_ifs at he
      · exact Or.inl he
      · simpa using he
    simp only [List.foldl_cons, List.mem_cons]
    refine ⟨fun e he => h1 e (hsub e he), ?_, ?_⟩
    · intro e he
      rcases he with he | he
      · subst he; exact h1 _ hx
      · exact h2 e he
    · intro e he
      rcases h3 e he with h | h
      · rcases hback e h with h | h
        · exact Or.inl h
        · exact Or.inr (Or.inl h)
      · exact Or.inr (Or.inr h)

theorem ProcessNewChain_picks (fConnects : CBlockIndex → Bool) (a x : CBlockIndex)
    (st : ChainState)
    (hmem : a ∈ st.mapBlockIndex ∨ a ∈ x.Ancestors) (hnf : a ∉ st.setFailed)
    (hall : ∀ e, e ∈ st.mapBlockIndex ∨ e ∈ x.Ancestors →
      e = a ∨ e.nChainWork < a.nChainWork)
    (hvalid : ∀ e ∈ a.Ancestors, fConnects e = true) :
    (ProcessNewChain fConnects st x).tip = some a ∧
    (ProcessNewChain fConnects st x).setFailed = st.setFailed ∧
    ∀ e ∈ (ProcessNewChain fConnects st x).mapBlockIndex,
      e ∈ st.mapBlockIndex ∨ e ∈ x.Ancestors := by
  obtain ⟨f1, f2, f3⟩ := foldl_AddToBlockIndex x.Ancestors.reverse st.mapBlockIndex
  have f3b : ∀ e ∈ x.Ancestors.reverse.foldl AddToBlockIndex st.mapBlockIndex,
      e ∈ st.mapBlockIndex ∨ e ∈ x.Ancestors := by
    intro e he
    rcases f3 e he with h | h
    · exact Or.inl h
    · exact Or.inr (List.mem_reverse.1 h)
  have key := ActivateBestChainLoop_picks fConnects a
    (x.Ancestors.reverse.foldl AddToBlockIndex st.mapBlockIndex).length
    { st with mapBlockIndex := x.Ancestors.reverse.foldl AddToBlockIndex st.mapBlockIndex }
    (hmem.elim (f1 a) (fun h => f2 a (List.mem_reverse.2 h))) hnf
    (fun e he => hall e (f3b e he)) hvalid
  unfold ProcessNewChain ActivateBestChain
  rw [key]
  exact ⟨rfl, rfl, f3b⟩

theorem ProcessNewChain_inv (fConnects : CBlockIndex → Bool) (x : CBlockIndex)
    (st : ChainState) :
    (∀ e ∈ (ProcessNewChain fConnects st x).mapBlockIndex,
      e ∈ st.mapBlockIndex ∨ e ∈ x.Ancestors) ∧
    ∀ e ∈ (ProcessNewChain fConnects st x).setFailed,
      e ∈ st.setFailed ∨ ∃ bad ∈ e.Ancestors, fConnects bad = false := by
  obtain ⟨_, _, f3⟩ := foldl_AddToBlockIndex x.Ancestors.reverse st.mapBlockIndex
  unfold ProcessNewChain ActivateBestChain
  obtain ⟨i1, i2⟩ := ActivateBestChainLoop_inv fConnects
    ((x.Ancestors.reverse.foldl AddToBlockIndex st.mapBlockIndex).length + 1)
    { st with mapBlockIndex := x.Ancestors.reverse.foldl AddToBlockIndex st.mapBlockIndex }
  refine ⟨?_, i2⟩
  intro e he
  rw [i1] at he
  rcases f3 e he with h | h
  · exact Or.inl h
  · exact Or.inr (List.mem_reverse.1 h)

/-- C7. Two chains `a` and `b` compete, `a` with strictly more cumulative
proof-of-work than `b` and than every entry already known; every block of
`a` connects, and `a` is not marked invalid. Whether `a` arrives first and
`b` second or the other way round, once `ActivateBestChain` has processed both
the active tip is `a`. -/
theorem C7_higher_work_chain_wins (fConnects : CBlockIndex → Bool) (st : ChainState)
    (a b : CBlockIndex)
    (hvalid : ∀ e ∈ a.Ancestors, fConnects e = true)
    (hwa : a.WorkIncreasing = true) (hwb : b.WorkIncreasing = true)
    (hwork : b.nChainWork < a.nChainWork)
    (hknown : ∀ e ∈ st.mapBlockIndex, e.nChainWork < a.nChainWork)
    (hnf : a ∉ st.setFailed) :
    (ProcessNewChain fConnects (ProcessNewChain fConnects st a) b).tip = some a ∧
    (ProcessNewChain fConnects (ProcessNewChain fConnects st b) a).tip = some a := by
  have ha : ∀ e ∈ a.Ancestors, e = a ∨ e.nChainWork < a.nChainWork :=
    CBlockIndex.work_lt_of_mem_Ancestors a hwa
  have hb : ∀ e ∈ b.Ancestors, e = a ∨ e.nChainWork < a.nChainWork := by
    intro e he
    right
    rcases CBlockIndex.work_lt_of_mem_Ancestors b hwb e he with h | h
    · rw [h]; exact hwork
    · exact Nat.lt_trans h hwork
  constructor
  · obtain ⟨t1, s1, m1⟩ := ProcessNewChain_picks fConnects a a st
      (Or.inr a.mem_Ancestors_self) hnf
      (fun e he => he.elim (fun h => Or.inr (hknown e h)) (ha e)) hvalid
    have hin : a ∈ (ProcessNewChain fConnects st a).mapBlockIndex := by
      obtain ⟨_, f2, _⟩ := foldl_AddToBlockIndex a.Ancestors.reverse st.mapBlockIndex
      have hi := (ActivateBestChainLoop_inv fConnects
        ((a.Ancestors.reverse.foldl AddToBlockIndex st.mapBlockIndex).length + 1)
        { st with mapBlockIndex :=
            a.Ancestors.reverse.foldl AddToBlockIndex st.mapBlockIndex }).1
      unfold ProcessNewChain ActivateBestChain
      rw [hi]
      exact f2 a (List.mem_reverse.2 a.mem_Ancestors_self)
    exact (ProcessNewChain_picks fConnects a b _ (Or.inl hin) (by rw [s1]; exact hnf)
      (fun e he => he.elim
        (fun h => (m1 e h).elim (fun h0 => Or.inr (hknown e h0)) (ha e)) (hb e))
      hvalid).1
  · obtain ⟨m1, s1⟩ := ProcessNewChain_inv fConnects b st
    have hnf1 : a ∉ (ProcessNewChain fConnects st b).setFailed := by
      intro hmem
      rcases s1 a hmem with h | ⟨bad, hbad, hf⟩
      · exact hnf h
      · rw [hvalid bad hbad] at hf
        exact Bool.noConfusion hf
    exact (ProcessNewChain_picks fConnects a a _ (Or.inr a.mem_Ancestors_self) hnf1
      (fun e he => he.elim
        (fun h => (m1 e h).elim (fun h0 => Or.inr (hknown e h0)) (hb e)) (ha e))
      hvalid).1

/-- Witness for C7: two chains of two blocks each on the genesis block, with
cumulative work 7 and 5. -/
theorem C7_higher_work_chain_wins_witness :
    (exampleChainA.nHeight = exampleChainB.nHeight ∧
      exampleChainB.nChainWork < exampleChainA.nChainWork) ∧
    ((ProcessNewChain (fun _ => true)
        (ProcessNewChain (fun _ => true) exampleChainState exampleChainA) exampleChainB).tip =
        some exampleChainA ∧
     (ProcessNewChain (fun _ => true)
        (ProcessNewChain (fun _ => true) exampleChainState exampleChainB) exampleChainA).tip =
        some exampleChainA) :=
  ⟨by decide,
   C7_higher_work_chain_wins (fun _ => true) exampleChainState exampleChainA exampleChainB
     (fun _ _ => rfl) (by decide) (by decide) (by decide) (by decide) (by decide)⟩

/-! ## Mempool admission : replace-by-fee -/

theorem mem_GetConflicts {pool : List CTxMemPoolEntry} {e1 : CTxMemPoolEntry}
    {tx : CTransaction} {o : COutPoint} (h1 : e1 ∈ pool)
    (ho1 : o ∈ e1.tx.vin.map CTxIn.prevout) (ho2 : o ∈ tx.vin.map CTxIn.prevout) :
    e1 ∈ GetConflicts pool tx := by
  unfold GetConflicts
  rw [List.mem_filter]
  refine ⟨h1, ?_⟩
  obtain ⟨i, hi, hio⟩ := List.mem_map.1 ho1
  obtain ⟨j, hj, hjo⟩ := List.mem_map.1 ho2
  rw [List.any_eq_true]
  refine ⟨i, hi, ?_⟩
  rw [List.any_eq_true]
  exact ⟨j, hj, by rw [hio, hjo]; simp⟩

theorem ReplacementAllowed_fee {policy : MempoolPolicy} {view : CCoinsViewCache}
    {conflicts : List CTxMemPoolEntry} {tx : CTransaction} {nFee : Nat}
    (h : ReplacementAllowed policy view conflicts tx nFee = true) :
    ∀ c ∈ conflicts, c.nFee < nFee ∧ c.nFee + policy.nReplacementIncrement ≤ nFee ∧
      c.nFee * policy.GetTxSize tx ≤ nFee * c.nTxSize := by
  intro c hc
  unfold ReplacementAllowed at h
  simp only [Bool.and_eq_true, List.all_eq_true, decide_eq_true_eq] at h
  have hcx := h.1.1.2 c hc
  exact ⟨hcx.1.1, hcx.1.2, hcx.2⟩

/-- The checks before the conflict check never accept by themselves. -/
theorem PreConflictChecks_ne_Accepted (policy : MempoolPolicy) (view : CCoinsViewCache)
    (pool : List CTxMemPoolEntry) (tx : CTransaction) (pool2 : List CTxMemPoolEntry) :
    PreConflictChecks policy view pool tx ≠ .inl (.Accepted pool2) := by
  intro h
  unfold PreConflictChecks at h
  cases hv : GetValueIn view pool tx.vin with
  | none =>
    rw [hv] at h
    dsimp only at h
    split_ifs at h <;> simp at h
  | some nValueIn =>
    rw [hv] at h
    dsimp only at h
    split_ifs at h <;> simp at h

/-- C8. Let T1 be pooled, spending outpoint O with fee F1, and let the
candidate T2 spend O too. If `AcceptToMemoryPool` accepts T2, then T2 reached
the conflict check with a fee F2 that is strictly higher than F1, and higher
by at least the policy increment, and with a feerate at least that of T1.
If T2 reaches the conflict check with fee F2 and one of these conditions
fails, T2 is rejected with `Conflict`, whose reject code is
`REJECT_CONFLICT = 0x102`. -/
theorem C8_replacement_needs_higher_fee (policy : MempoolPolicy)
    (VerifyScript : CScriptCheck → Bool) (view : CCoinsViewCache)
    (pool : List CTxMemPoolEntry) (t1 : CTxMemPoolEntry) (t2 : CTransaction) (o : COutPoint)
    (hpooled : t1 ∈ pool) (ho1 : o ∈ t1.tx.vin.map CTxIn.prevout)
    (ho2 : o ∈ t2.vin.map CTxIn.prevout) :
    (∀ pool2, AcceptToMemoryPool policy VerifyScript view pool t2 = .Accepted pool2 →
      ∃ nFee2, PreConflictChecks policy view pool t2 = .inr nFee2 ∧
        t1.nFee < nFee2 ∧
        t1.nFee + policy.nReplacementIncrement ≤ nFee2 ∧
        t1.nFee * policy.GetTxSize t2 ≤ nFee2 * t1.nTxSize) ∧
    (∀ nFee2, PreConflictChecks policy view pool t2 = .inr nFee2 →
      ¬ (t1.nFee < nFee2 ∧
          t1.nFee + policy.nReplacementIncrement ≤ nFee2 ∧
          t1.nFee * policy.GetTxSize t2 ≤ nFee2 * t1.nTxSize) →
      AcceptToMemoryPool policy VerifyScript view pool t2 = .Rejected .CONFLICT) ∧
    RejectReason.CONFLICT.nRejectCode = some REJECT_CONFLICT ∧ REJECT_CONFLICT = 0x102 := by
  have hmem := mem_GetConflicts hpooled ho1 ho2
  have hne : (GetConflicts pool t2).isEmpty = false := by
    cases hc : GetConflicts pool t2 with
    | nil => rw [hc] at hmem; simp at hmem
    | cons x l => rfl
  refine ⟨?_, ?_, rfl, rfl⟩
  · intro pool2 hacc
    unfold AcceptToMemoryPool at hacc
    cases hpre : PreConflictChecks policy view pool t2 with
    | inl r =>
      rw [hpre] at hacc
      dsimp only at hacc
      subst hacc
      exact absurd hpre (PreConflictChecks_ne_Accepted policy view pool t2 pool2)
    | inr nFee2 =>
      rw [hpre] at hacc
      dsimp only at hacc
      split_ifs at hacc with hc
      have hallowed : ReplacementAllowed policy view (GetConflicts pool t2) t2 nFee2 = true := by
        by_contra hcon
        exact hc ⟨hne, by simpa using hcon⟩
      exact ⟨nFee2, rfl, ReplacementAllowed_fee hallowed t1 hmem⟩
  · intro nFee2 hpre hcond
    unfold AcceptToMemoryPool
    rw [hpre]
    dsimp only
    have hnot : ReplacementAllowed policy view (GetConflicts pool t2) t2 nFee2 = false := by
      by_contra hcon
      exact hcond (ReplacementAllowed_fee (by simpa using hcon) t1 hmem)
    rw [if_pos ⟨hne, hnot⟩]

/-- Witness for C8: with T1 pooled at fee 1 and feerate 1/300, the candidate
that spends the same coin at the same fee and feerate is rejected with
`Conflict`, under increment 1 and under increment 0 alike. -/
theorem C8_replacement_needs_higher_fee_witness :
    AcceptToMemoryPool examplePolicy exampleVerify exampleView [examplePooled] exampleLowFee =
      .Rejected .CONFLICT ∧
    AcceptToMemoryPool examplePolicyNoIncrement exampleVerify exampleView [examplePooled]
      exampleLowFee = .Rejected .CONFLICT :=
  ⟨(C8_replacement_needs_higher_fee examplePolicy exampleVerify exampleView [examplePooled]
      examplePooled exampleLowFee ⟨1, 0⟩ (by decide) (by decide) (by decide)).2.1 1
      (by decide) (by decide),
   (C8_replacement_needs_higher_fee examplePolicyNoIncrement exampleVerify exampleView
      [examplePooled] examplePooled exampleLowFee ⟨1, 0⟩ (by decide) (by decide)
      (by decide)).2.1 1 (by decide) (by decide)⟩

/-! ## Block-file statistics : the time range -/

namespace CBlockFileInfo

theorem AddBlock_nTimeFirst (f : CBlockFileInfo) (h t : Nat) :
    (f.AddBlock h t).nTimeFirst =
      if f.nBlocks = 0 ∨ f.nTimeFirst > t then t else f.nTimeFirst := by
  unfold AddBlock
  dsimp only
  split_ifs <;> rfl

theorem AddBlock_nTimeLast (f : CBlockFileInfo) (h t : Nat) :
    (f.AddBlock h t).nTimeLast = if t > f.nTimeLast then t else f.nTimeLast := by
  unfold AddBlock
  dsimp only
  split_ifs <;> rfl

/-- Once a file holds a block, further `AddBlock` calls keep the time range
equal to the running minimum and maximum, as long as the counter does not wrap. -/
theorem AddBlocks_running_time (l : List (Nat × Nat)) :
    ∀ f : CBlockFileInfo, 0 < f.nBlocks → f.nBlocks + l.length < UINT_RANGE →
      (f.AddBlocks l).nTimeFirst = l.foldl (fun m p => min m p.2) f.nTimeFirst ∧
      (f.AddBlocks l).nTimeLast = l.foldl (fun m p => max m p.2) f.nTimeLast := by
  induction l with
  | nil => intro f _ _; exact ⟨rfl, rfl⟩
  | cons p l ih =>
    intro f hpos hlen
    simp only [List.length_cons] at hlen
    have hnb : (f.AddBlock p.1 p.2).nBlocks = f.nBlocks + 1 := by
      rw [AddBlock_nBlocks]; exact Nat.mod_eq_of_lt (by omega)
    have h := ih (f.AddBlock p.1 p.2) (by omega) (by omega)
    have hF : (f.AddBlock p.1 p.2).nTimeFirst = min f.nTimeFirst p.2 := by
      rw [AddBlock_nTimeFirst]
      split_ifs with hc
      · rcases hc with hc | hc
        · omega
        · exact (Nat.min_eq_right (Nat.le_of_lt hc)).symm
      · exact (Nat.min_eq_left (by omega)).symm
    have hL : (f.AddBlock p.1 p.2).nTimeLast = max f.nTimeLast p.2 := by
      rw [AddBlock_nTimeLast]
      split_ifs with hc
      · exact (Nat.max_eq_right (Nat.le_of_lt hc)).symm
      · exact (Nat.max_eq_left (by omega)).symm
    simp only [AddBlocks, List.foldl_cons] at h ⊢
    rw [hF, hL] at h
    exact h

theorem foldl_min_snd (l : List (Nat × Nat)) (m : Nat) :
    l.foldl (fun m p => min m p.2) m = (l.map Prod.swap).foldl (fun m p => min m p.1) m := by
  rw [List.foldl_map]
  rfl

theorem foldl_max_snd (l : List (Nat × Nat)) (m : Nat) :
    l.foldl (fun m p => max m p.2) m = (l.map Prod.swap).foldl (fun m p => max m p.1) m := by
  rw [List.foldl_map]
  rfl

theorem map_fst_swap (l : List (Nat × Nat)) : (l.map Prod.swap).map Prod.fst = l.map Prod.snd := by
  rw [List.map_map]
  rfl

end CBlockFileInfo

/-- C11. Starting from a freshly constructed `CBlockFileInfo`, adding the
blocks of any non-empty list of fewer than `2^32` (height, time) pairs leaves
`nTimeFirst` equal to the least of the times and `nTimeLast` equal to the
greatest. -/
theorem C11_AddBlock_time_range (l : List (Nat × Nat)) (hne : l ≠ [])
    (hlen : l.length < 2 ^ 32) :
    ((CBlockFileInfo.SetNull.AddBlocks l).nTimeFirst ∈ l.map Prod.snd ∧
      ∀ t ∈ l.map Prod.snd, (CBlockFileInfo.SetNull.AddBlocks l).nTimeFirst ≤ t) ∧
    ((CBlockFileInfo.SetNull.AddBlocks l).nTimeLast ∈ l.map Prod.snd ∧
      ∀ t ∈ l.map Prod.snd, t ≤ (CBlockFileInfo.SetNull.AddBlocks l).nTimeLast) := by
  cases l with
  | nil => exact absurd rfl hne
  | cons p l =>
    simp only [List.length_cons] at hlen
    have h1 : (CBlockFileInfo.SetNull.AddBlock p.1 p.2).nBlocks = 1 := by
      rw [CBlockFileInfo.AddBlock_nBlocks]; rfl
    have hF : (CBlockFileInfo.SetNull.AddBlock p.1 p.2).nTimeFirst = p.2 := by
      rw [CBlockFileInfo.AddBlock_nTimeFirst]; simp [CBlockFileInfo.SetNull]
    have hL : (CBlockFileInfo.SetNull.AddBlock p.1 p.2).nTimeLast = p.2 := by
      rw [CBlockFileInfo.AddBlock_nTimeLast]
      simp only [CBlockFileInfo.SetNull]
      split_ifs with hc
      · rfl
      · omega
    have h := CBlockFileInfo.AddBlocks_running_time l (CBlockFileInfo.SetNull.AddBlock p.1 p.2)
      (by omega) (by rw [h1]; exact (by omega : 1 + l.length < 2 ^ 32))
    rw [hF, hL, CBlockFileInfo.foldl_min_snd, CBlockFileInfo.foldl_max_snd] at h
    obtain ⟨hmin, hmax⟩ := h
    obtain ⟨a1, a2, a3⟩ := CBlockFileInfo.foldl_min_spec (l.map Prod.swap) p.2
    obtain ⟨b1, b2, b3⟩ := CBlockFileInfo.foldl_max_spec (l.map Prod.swap) p.2
    rw [CBlockFileInfo.map_fst_swap] at a1 a3 b1 b3
    have e : CBlockFileInfo.SetNull.AddBlocks (p :: l) =
        (CBlockFileInfo.SetNull.AddBlock p.1 p.2).AddBlocks l := rfl
    rw [e, hmin, hmax]
    simp only [List.map_cons, List.mem_cons]
    refine ⟨⟨?_, ?_⟩, ⟨?_, ?_⟩⟩
    · rcases a1 with a1 | a1
      · left; exact a1
      · right; exact a1
    · intro t ht
      rcases ht with ht | ht
      · rw [ht]; exact a2
      · exact a3 t ht
    · rcases b1 with b1 | b1
      · left; exact b1
      · right; exact b1
    · intro t ht
      rcases ht with ht | ht
      · rw [ht]; exact b2
      · exact b3 t ht

/-- Witness for C11: three blocks added out of time order. -/
theorem C11_AddBlock_time_range_witness :
    ((CBlockFileInfo.SetNull.AddBlocks [(7, 30), (3, 10), (5, 20)]).nTimeFirst = 10 ∧
      (CBlockFileInfo.SetNull.AddBlocks [(7, 30), (3, 10), (5, 20)]).nTimeLast = 30) ∧
    (CBlockFileInfo.SetNull.AddBlocks [(7, 30), (3, 10), (5, 20)]).nTimeFirst ∈
      [(7, 30), (3, 10), (5, 20)].map Prod.snd :=
  ⟨by decide,
   (C11_AddBlock_time_range [(7, 30), (3, 10), (5, 20)] (by decide) (by decide)).1.1⟩

/-! ## Constants -/

/-- C12. In exact rational arithmetic, `MIN_BLOCKS_TO_KEEP` blocks of 1 MiB
plus 15% undo data plus 20% orphan rate (the low-water mark, between 397 and
398 MiB), plus one `MAX_BLOCKFILE_SIZE` file with 15% undo data (between 147
and 148 MiB), is at most 545 MiB and so at most
`MIN_DISK_SPACE_FOR_BLOCK_FILES = 550·1024·1024`. -/
theorem C12_min_prune_target_covers_high_water_mark :
    MIN_DISK_SPACE_FOR_BLOCK_FILES = 550 * 1024 * 1024 ∧
    MIN_BLOCKS_TO_KEEP = 288 ∧ MAX_BLOCKFILE_SIZE = 128 * 2 ^ 20 ∧
    (MIN_BLOCKS_TO_KEEP : ℚ) * 2 ^ 20 * (115 / 100) * (120 / 100) +
        (MAX_BLOCKFILE_SIZE : ℚ) * (115 / 100) ≤ (MIN_DISK_SPACE_FOR_BLOCK_FILES : ℚ) ∧
    (MIN_BLOCKS_TO_KEEP : ℚ) * 2 ^ 20 * (115 / 100) * (120 / 100) +
        (MAX_BLOCKFILE_SIZE : ℚ) * (115 / 100) ≤ 545 * 2 ^ 20 ∧
    (397 * 2 ^ 20 ≤ (MIN_BLOCKS_TO_KEEP : ℚ) * 2 ^ 20 * (115 / 100) * (120 / 100) ∧
      (MIN_BLOCKS_TO_KEEP : ℚ) * 2 ^ 20 * (115 / 100) * (120 / 100) < 398 * 2 ^ 20) ∧
    (147 * 2 ^ 20 ≤ (MAX_BLOCKFILE_SIZE : ℚ) * (115 / 100) ∧
      (MAX_BLOCKFILE_SIZE : ℚ) * (115 / 100) < 148 * 2 ^ 20) := by
  refine ⟨rfl, rfl, by decide, ?_, ?_, ⟨?_, ?_⟩, ⟨?_, ?_⟩⟩ <;>
    norm_num [MIN_BLOCKS_TO_KEEP, MAX_BLOCKFILE_SIZE, MIN_DISK_SPACE_FOR_BLOCK_FILES]

/-- C13. `MAX_BLOCKFILE_SIZE` is 128·2^20, `BLOCKFILE_CHUNK_SIZE` is 16·2^20
and `UNDOFILE_CHUNK_SIZE` is 2^20 bytes; the cap is an exact multiple of both
chunk sizes and holds exactly 8 block chunks; hence rounding any size up to
the cap to whole chunks stays within the cap. -/
theorem C13_blockfile_cap_is_whole_chunks :
    MAX_BLOCKFILE_SIZE = 128 * 2 ^ 20 ∧ BLOCKFILE_CHUNK_SIZE = 16 * 2 ^ 20 ∧
    UNDOFILE_CHUNK_SIZE = 2 ^ 20 ∧
    MAX_BLOCKFILE_SIZE % BLOCKFILE_CHUNK_SIZE = 0 ∧
    MAX_BLOCKFILE_SIZE % UNDOFILE_CHUNK_SIZE = 0 ∧
    MAX_BLOCKFILE_SIZE = 8 * BLOCKFILE_CHUNK_SIZE ∧
    (∀ nSize : Nat, nSize ≤ MAX_BLOCKFILE_SIZE →
      (nSize + BLOCKFILE_CHUNK_SIZE - 1) / BLOCKFILE_CHUNK_SIZE * BLOCKFILE_CHUNK_SIZE ≤
        MAX_BLOCKFILE_SIZE) ∧
    (∀ nSize : Nat, nSize ≤ MAX_BLOCKFILE_SIZE →
      (nSize + UNDOFILE_CHUNK_SIZE - 1) / UNDOFILE_CHUNK_SIZE * UNDOFILE_CHUNK_SIZE ≤
        MAX_BLOCKFILE_SIZE) := by
  refine ⟨by decide, by decide, by decide, by decide, by decide, by decide, ?_, ?_⟩
  · intro n hn
    simp only [MAX_BLOCKFILE_SIZE, BLOCKFILE_CHUNK_SIZE] at hn ⊢
    omega
  · intro n hn
    simp only [MAX_BLOCKFILE_SIZE, UNDOFILE_CHUNK_SIZE] at hn ⊢
    omega

/-- C14. The reject codes `REJECT_HIGHFEE`, `REJECT_ALREADY_KNOWN` and
`REJECT_CONFLICT` are each at least `REJECT_INTERNAL = 0x100`, hence above
the largest one-byte value 0xFF, and are pairwise distinct. -/
theorem C14_internal_reject_codes :
    REJECT_INTERNAL = 0x100 ∧
    (REJECT_INTERNAL ≤ REJECT_HIGHFEE ∧ REJECT_INTERNAL ≤ REJECT_ALREADY_KNOWN ∧
      REJECT_INTERNAL ≤ REJECT_CONFLICT) ∧
    (0xFF < REJECT_HIGHFEE ∧ 0xFF < REJECT_ALREADY_KNOWN ∧ 0xFF < REJECT_CONFLICT) ∧
    (REJECT_HIGHFEE ≠ REJECT_ALREADY_KNOWN ∧ REJECT_HIGHFEE ≠ REJECT_CONFLICT ∧
      REJECT_ALREADY_KNOWN ≠ REJECT_CONFLICT) := by
  decide

/-! ## Abandoned transactions -/

/-- C15. For every `CMerkleTx` and whatever the value of `ABANDON_HASH`:
`isAbandoned()` implies `hashUnset()`; after `setAbandoned()` both return
true; and `setAbandoned()` leaves `nIndex` and the transaction as they were. -/
theorem C15_abandoned_is_unset (ABANDON_HASH : Nat) (m : CMerkleTx) :
    (m.isAbandoned ABANDON_HASH = true → m.hashUnset ABANDON_HASH = true) ∧
    (m.setAbandoned ABANDON_HASH).isAbandoned ABANDON_HASH = true ∧
    (m.setAbandoned ABANDON_HASH).hashUnset ABANDON_HASH = true ∧
    (m.setAbandoned ABANDON_HASH).nIndex = m.nIndex ∧
    (m.setAbandoned ABANDON_HASH).tx = m.tx ∧
    m.setAbandoned ABANDON_HASH = { m with hashBlock := ABANDON_HASH } := by
  refine ⟨?_, ?_, ?_, rfl, rfl, rfl⟩
  · intro h
    simp only [CMerkleTx.isAbandoned] at h
    simp [CMerkleTx.hashUnset, h]
  · simp [CMerkleTx.isAbandoned, CMerkleTx.setAbandoned]
  · simp [CMerkleTx.hashUnset, CMerkleTx.setAbandoned]

/-! ## Decimal conversions are inverse to each other -/

theorem CharDigit_DigitChar (d : Nat) (hd : d < 10) : CharDigit (DigitChar d) = some d := by
  interval_cases d <;> rfl

theorem DigitChar_plain (d : Nat) (hd : d < 10) :
    IsSpace (DigitChar d) = false ∧ DigitChar d ≠ '-' ∧ DigitChar d ≠ '+' := by
  interval_cases d <;> decide

theorem ParseDigits_map (l : List Nat) :
    ∀ acc : Nat, (∀ d ∈ l, d < 10) →
      ParseDigits (l.map DigitChar) acc = l.foldl (fun a d => a * 10 + d) acc := by
  induction l with
  | nil => intro acc _; rfl
  | cons d l ih =>
    intro acc h
    simp only [List.map_cons, ParseDigits, List.foldl_cons]
    rw [CharDigit_DigitChar d (h d (List.mem_cons_self _ _))]
    exact ih _ (fun x hx => h x (List.mem_cons_of_mem _ hx))

theorem foldl_reverse_digits (l : List Nat) :
    l.reverse.foldl (fun a d => a * 10 + d) 0 = Nat.ofDigits 10 l := by
  induction l with
  | nil => rfl
  | cons d l ih =>
    rw [List.reverse_cons, List.foldl_append, ih, Nat.ofDigits_cons]
    simp only [List.foldl_cons, List.foldl_nil]
    omega

theorem DecimalDigits_eq (fuel : Nat) :
    ∀ n : Nat, n ≤ fuel → DecimalDigits fuel n = Nat.digits 10 n := by
  induction fuel with
  | zero =>
    intro n hn
    have h0 : n = 0 := by omega
    subst h0
    simp [DecimalDigits]
  | succ fuel ih =>
    intro n hn
    unfold DecimalDigits
    split_ifs with h0
    · subst h0; simp
    · rw [Nat.digits_def' (by norm_num) (Nat.pos_of_ne_zero h0), ih (n / 10) (by omega)]

theorem ParseDigits_NatToChars (n : Nat) : ParseDigits (NatToChars n) 0 = n := by
  unfold NatToChars
  rw [DecimalDigits_eq n n (Nat.le_refl n)]
  split_ifs with h0
  · subst h0; rfl
  · rw [ParseDigits_map _ _ (fun d hd => Nat.digits_lt_base (by norm_num) (List.mem_reverse.1 hd)),
      foldl_reverse_digits, Nat.ofDigits_digits]

theorem NatToChars_head (n : Nat) :
    ∃ d rest, d < 10 ∧ NatToChars n = DigitChar d :: rest := by
  unfold NatToChars
  rw [DecimalDigits_eq n n (Nat.le_refl n)]
  split_ifs with h0
  · exact ⟨0, [], by norm_num, rfl⟩
  · have hne : (Nat.digits 10 n).reverse ≠ [] := by
      simpa using (Nat.digits_ne_nil_iff_ne_zero.2 h0)
    cases hl : (Nat.digits 10 n).reverse with
    | nil => exact absurd hl hne
    | cons d rest =>
      refine ⟨d, rest.map DigitChar, ?_, rfl⟩
      have hmem : d ∈ (Nat.digits 10 n).reverse := by rw [hl]; exact List.mem_cons_self _ _
      exact Nat.digits_lt_base (by norm_num) (List.mem_reverse.1 hmem)

theorem atoi64Decimal_digits (n : Nat) (hn : (n : Int) ≤ INT64_MAX) :
    atoi64Decimal (String.mk (NatToChars n)) = n := by
  obtain ⟨d, rest, hd, hl⟩ := NatToChars_head n
  obtain ⟨h1, h2, h3⟩ := DigitChar_plain d hd
  have hp := ParseDigits_NatToChars n
  rw [hl] at hp
  unfold atoi64Decimal
  rw [hl]
  simp only [List.dropWhile_cons, h1, Bool.false_eq_true, if_false, h2, h3, hp]
  exact min_eq_left hn

/-- The decimal instance of `atoi64` undoes the decimal printing of an
unsigned number that fits an `int64_t`. -/
theorem atoi64Decimal_utostrDecimal (n : Nat) (hn : (n : Int) ≤ INT64_MAX) :
    atoi64Decimal (utostrDecimal n) = n :=
  atoi64Decimal_digits n hn

/-- The decimal instance of `atoi64` undoes the decimal instance of `i64tostr`
on the whole range of an `int64_t`. -/
theorem atoi64Decimal_i64tostrDecimal (x : Int) (hlo : INT64_MIN ≤ x) (hhi : x ≤ INT64_MAX) :
    atoi64Decimal (i64tostrDecimal x) = x := by
  unfold i64tostrDecimal
  split_ifs with hneg
  · unfold atoi64Decimal
    have hs : IsSpace '-' = false := by decide
    simp only [List.dropWhile_cons, hs, Bool.false_eq_true, if_false, if_true,
      ParseDigits_NatToChars]
    have hcast : (((-x).toNat : Nat) : Int) = -x := Int.toNat_of_nonneg (by omega)
    rw [hcast, neg_neg]
    exact max_eq_left hlo
  · have hcast : ((x.toNat : Nat) : Int) = x := Int.toNat_of_nonneg (by omega)
    have h := atoi64Decimal_digits x.toNat (by rw [hcast]; exact hhi)
    rw [hcast] at h
    exact h

/-! ## The value map -/

theorem MapFind_MapErase_self (k : String) (m : mapValue_t) : MapFind k (MapErase k m) = none := by
  induction m with
  | nil => rfl
  | cons e m ih =>
    obtain ⟨a, b⟩ := e
    by_cases h : a = k
    · simpa [MapErase, List.filter_cons, h] using ih
    · simpa [MapErase, List.filter_cons, h, MapFind] using ih

theorem MapFind_MapErase_ne (k k2 : String) (m : mapValue_t) (hne : k2 ≠ k) :
    MapFind k2 (MapErase k m) = MapFind k2 m := by
  induction m with
  | nil => rfl
  | cons e m ih =>
    obtain ⟨a, b⟩ := e
    have hstep : MapErase k ((a, b) :: m) =
        if a = k then MapErase k m else (a, b) :: MapErase k m := by
      by_cases h : a = k <;> simp [MapErase, List.filter_cons, h]
    rw [hstep]
    by_cases h : a = k
    · have h2 : ¬ a = k2 := by rw [h]; exact fun e => hne e.symm
      rw [if_pos h, ih]
      simp only [MapFind, h2, if_false]
    · rw [if_neg h]
      simp only [MapFind]
      rw [ih]

theorem MapFind_MapAssign_self (k v : String) (m : mapValue_t) :
    MapFind k (MapAssign k v m) = some v := by
  simp [MapAssign, MapFind]

theorem MapFind_MapAssign_ne (k v k2 : String) (m : mapValue_t) (hne : k2 ≠ k) :
    MapFind k2 (MapAssign k v m) = MapFind k2 m := by
  have h : k ≠ k2 := fun e => hne e.symm
  simp only [MapAssign, MapFind, h, if_false]
  exact MapFind_MapErase_ne k k2 m hne

theorem MapCount_eq_zero_iff (k : String) (m : mapValue_t) :
    MapCount k m = 0 ↔ MapFind k m = none := by
  unfold MapCount
  cases MapFind k m <;> simp

theorem ReadOrderPos_absent (atoi64 : String → Int) (m : mapValue_t)
    (h : MapCount "n" m = 0) : ReadOrderPos atoi64 m = (-1, m) := by
  unfold ReadOrderPos
  rw [if_pos h]

theorem ReadOrderPos_present (atoi64 : String → Int) (m : mapValue_t) (v : String)
    (h : MapFind "n" m = some v) : ReadOrderPos atoi64 m = (atoi64 v, m) := by
  unfold ReadOrderPos
  have hc : ¬ MapCount "n" m = 0 := by
    rw [MapCount_eq_zero_iff, h]; simp
  rw [if_neg hc]
  simp [MapIndex, h]

/-- C18. Let `atoi64` undo `i64tostr` on the range of an `int64_t`. For every
64-bit `nOrderPos` and every map such that `nOrderPos ≠ −1` or the map has no
key "n", `ReadOrderPos` on the map `WriteOrderPos` produced returns
`nOrderPos`. `WriteOrderPos` with `nOrderPos = −1` leaves every map as it
was, and `ReadOrderPos` on a map without key "n" returns −1 and leaves the
map as it was. -/
theorem C18_ReadOrderPos_WriteOrderPos (atoi64 : String → Int) (i64tostr : Int → String)
    (hinv : ∀ x : Int, INT64_MIN ≤ x → x ≤ INT64_MAX → atoi64 (i64tostr x) = x)
    (nOrderPos : Int) (mapValue : mapValue_t)
    (hlo : INT64_MIN ≤ nOrderPos) (hhi : nOrderPos ≤ INT64_MAX)
    (h : nOrderPos ≠ -1 ∨ MapCount "n" mapValue = 0) :
    (ReadOrderPos atoi64 (WriteOrderPos i64tostr nOrderPos mapValue)).1 = nOrderPos ∧
    (∀ m : mapValue_t, WriteOrderPos i64tostr (-1) m = m) ∧
    (∀ m : mapValue_t, MapCount "n" m = 0 → ReadOrderPos atoi64 m = (-1, m)) := by
  refine ⟨?_, fun m => by simp [WriteOrderPos], fun m hm => ReadOrderPos_absent atoi64 m hm⟩
  by_cases hm1 : nOrderPos = -1
  · have hc : MapCount "n" mapValue = 0 := h.resolve_left (fun hne => hne hm1)
    simp only [WriteOrderPos, hm1, if_true]
    rw [ReadOrderPos_absent atoi64 mapValue hc]
  · simp only [WriteOrderPos, hm1, if_false]
    rw [ReadOrderPos_present atoi64 _ _ (MapFind_MapAssign_self "n" _ mapValue)]
    exact hinv nOrderPos hlo hhi

/-- Witness for C18: position 17 written over a stale entry "n" and read back
with the decimal conversions. -/
theorem C18_ReadOrderPos_WriteOrderPos_witness :
    (WriteOrderPos i64tostrDecimal 17 [("n", "5"), ("a", "b")] =
      [("n", i64tostrDecimal 17), ("a", "b")]) ∧
    (ReadOrderPos atoi64Decimal
      (WriteOrderPos i64tostrDecimal 17 [("n", "5"), ("a", "b")])).1 = 17 :=
  ⟨by decide,
   (C18_ReadOrderPos_WriteOrderPos atoi64Decimal i64tostrDecimal atoi64Decimal_i64tostrDecimal
     17 [("n", "5"), ("a", "b")] (by decide) (by decide) (Or.inl (by decide))).1⟩

/-! ## Wallet transaction serialization -/

theorem MapFind_MapErase (k k2 : String) (m : mapValue_t) :
    MapFind k2 (MapErase k m) = if k2 = k then none else MapFind k2 m := by
  split_ifs with h
  · subst h; exact MapFind_MapErase_self k2 m
  · exact MapFind_MapErase_ne k k2 m h

namespace CWalletTxState

theorem EraseReserved_eq_filter (m : mapValue_t) :
    EraseReserved m = m.filter (fun e => decide (e.1 ∉ ReservedKeys)) := by
  unfold EraseReserved MapErase
  simp only [List.filter_filter]
  apply List.filter_congr
  intro e _
  simp only [ReservedKeys, List.mem_cons, List.mem_singleton, List.not_mem_nil, or_false,
    not_or, Bool.and_eq_true, decide_eq_true_eq, Bool.decide_and, ne_eq, decide_not]
  cases decide (e.1 = "fromaccount") <;> cases decide (e.1 = "version") <;>
    cases decide (e.1 = "spent") <;> cases decide (e.1 = "n") <;>
    cases decide (e.1 = "timesmart") <;> rfl

theorem EraseReserved_MapAssign (k v : String) (m : mapValue_t) (hk : k ∈ ReservedKeys) :
    EraseReserved (MapAssign k v m) = EraseReserved m := by
  rw [EraseReserved_eq_filter, EraseReserved_eq_filter]
  unfold MapAssign MapErase
  rw [List.filter_cons_of_neg (by simpa using hk), List.filter_filter]
  apply List.filter_congr
  intro e _
  by_cases he : e.1 = k
  · have : e.1 ∈ ReservedKeys := by rw [he]; exact hk
    simp [this]
  · simp [he]

theorem EraseReserved_WriteOrderPos (i64tostr : Int → String) (x : Int) (m : mapValue_t) :
    EraseReserved (WriteOrderPos i64tostr x m) = EraseReserved m := by
  unfold WriteOrderPos
  split_ifs
  · rfl
  · exact EraseReserved_MapAssign "n" _ m (by decide)

theorem MapFind_EraseReserved (k : String) (m : mapValue_t) :
    MapFind k (EraseReserved m) = if k ∈ ReservedKeys then none else MapFind k m := by
  unfold EraseReserved
  simp only [MapFind_MapErase, ReservedKeys, List.mem_cons, List.mem_singleton,
    List.not_mem_nil, or_false]
  by_cases h1 : k = "fromaccount" <;> by_cases h2 : k = "version" <;>
    by_cases h3 : k = "spent" <;> by_cases h4 : k = "n" <;>
    by_cases h5 : k = "timesmart" <;> simp [h1, h2, h3, h4, h5]

/-- The map in memory after `SerializationOp`, in either direction, is the
result of the five `erase` calls. -/
theorem SerializationOp_mapValue_erased (atoi64 : String → Int) (i64tostr : Int → String)
    (strprintf_u : Nat → String) (fForRead : Bool) (s : CWalletTxRecord)
    (w : CWalletTxState) :
    ∃ m, (SerializationOp atoi64 i64tostr strprintf_u fForRead s w).2.mapValue =
      EraseReserved m := by
  unfold SerializationOp
  exact ⟨_, rfl⟩

/-- The map in memory after a write. -/
theorem SerializationOp_write_mapValue (atoi64 : String → Int) (i64tostr : Int → String)
    (strprintf_u : Nat → String) (s : CWalletTxRecord) (w : CWalletTxState) :
    (SerializationOp atoi64 i64tostr strprintf_u false s w).2.mapValue =
      EraseReserved w.mapValue := by
  unfold SerializationOp
  simp only [Bool.false_eq_true, if_false, if_true]
  split_ifs
  · rw [EraseReserved_MapAssign _ _ _ (by decide), EraseReserved_WriteOrderPos,
      EraseReserved_MapAssign _ _ _ (by decide)]
  · rw [EraseReserved_WriteOrderPos, EraseReserved_MapAssign _ _ _ (by decide)]

end CWalletTxState

/-- C16. After `SerializationOp` in either direction the map `mapValue` of
the object has none of the keys "fromaccount", "version", "spent", "n",
"timesmart". After a write it equals the map before with those five keys
erased, so every entry under another key is as it was. -/
theorem C16_SerializationOp_erases_reserved_keys (atoi64 : String → Int)
    (i64tostr : Int → String) (strprintf_u : Nat → String) (s : CWalletTxRecord)
    (w : CWalletTxState) :
    (∀ fForRead : Bool, ∀ k ∈ CWalletTxState.ReservedKeys,
      MapCount k (CWalletTxState.SerializationOp atoi64 i64tostr strprintf_u fForRead s
        w).2.mapValue = 0) ∧
    (CWalletTxState.SerializationOp atoi64 i64tostr strprintf_u false s w).2.mapValue =
      MapErase "timesmart" (MapErase "n" (MapErase "spent" (MapErase "version"
        (MapErase "fromaccount" w.mapValue)))) ∧
    (∀ k, k ∉ CWalletTxState.ReservedKeys →
      MapFind k (CWalletTxState.SerializationOp atoi64 i64tostr strprintf_u false s
        w).2.mapValue = MapFind k w.mapValue) := by
  refine ⟨?_, CWalletTxState.SerializationOp_write_mapValue atoi64 i64tostr strprintf_u s w, ?_⟩
  · intro fForRead k hk
    obtain ⟨m, hm⟩ := CWalletTxState.SerializationOp_mapValue_erased atoi64 i64tostr
      strprintf_u fForRead s w
    rw [hm, MapCount_eq_zero_iff, CWalletTxState.MapFind_EraseReserved, if_pos hk]
  · intro k hk
    rw [CWalletTxState.SerializationOp_write_mapValue,
      CWalletTxState.MapFind_EraseReserved, if_neg hk]

namespace CWalletTxState

/-- What a write puts on the stream under the three keys it sets, for an
object whose map has neither "n" nor "timesmart". -/
theorem SerializationOp_write_record (atoi64 : String → Int) (i64tostr : Int → String)
    (strprintf_u : Nat → String) (s : CWalletTxRecord) (w : CWalletTxState)
    (hn : MapCount "n" w.mapValue = 0) (ht : MapCount "timesmart" w.mapValue = 0) :
    MapFind "fromaccount"
        (SerializationOp atoi64 i64tostr strprintf_u false s w).1.mapValue =
      some w.strFromAccount ∧
    MapFind "n" (SerializationOp atoi64 i64tostr strprintf_u false s w).1.mapValue =
      (if w.nOrderPos = -1 then none else some (i64tostr w.nOrderPos)) ∧
    MapFind "timesmart" (SerializationOp atoi64 i64tostr strprintf_u false s w).1.mapValue =
      (if w.nTimeSmart = 0 then none else some (strprintf_u w.nTimeSmart)) := by
  rw [MapCount_eq_zero_iff] at hn ht
  have e1 : ("fromaccount" : String) ≠ "n" := by decide
  have e2 : ("fromaccount" : String) ≠ "timesmart" := by decide
  have e3 : ("n" : String) ≠ "fromaccount" := by decide
  have e4 : ("n" : String) ≠ "timesmart" := by decide
  have e5 : ("timesmart" : String) ≠ "fromaccount" := by decide
  have e6 : ("timesmart" : String) ≠ "n" := by decide
  unfold SerializationOp
  simp only [Bool.false_eq_true, if_false, if_true, WriteOrderPos]
  by_cases hp : w.nOrderPos = -1 <;> by_cases hs : w.nTimeSmart = 0 <;>
    simp only [hp, hs, if_true, if_false, ne_eq, not_true_eq_false, not_false_eq_true,
      MapFind_MapAssign_self, MapFind_MapAssign_ne _ _ _ _ e1, MapFind_MapAssign_ne _ _ _ _ e2,
      MapFind_MapAssign_ne _ _ _ _ e3, MapFind_MapAssign_ne _ _ _ _ e4,
      MapFind_MapAssign_ne _ _ _ _ e5, MapFind_MapAssign_ne _ _ _ _ e6, hn, ht, and_self]

theorem MapIndex_present (k v : String) (m : mapValue_t) (h : MapFind k m = some v) :
    MapIndex k m = (v, m) := by
  simp [MapIndex, h]

/-- What a read makes of a record, in terms of the entries under the three
keys it consults. -/
theorem SerializationOp_read (atoi64 : String → Int) (i64tostr : Int → String)
    (strprintf_u : Nat → String) (s : CWalletTxRecord) (w : CWalletTxState) (a : String)
    (ha : MapFind "fromaccount" s.mapValue = some a) :
    (SerializationOp atoi64 i64tostr strprintf_u true s w).2.strFromAccount = a ∧
    (SerializationOp atoi64 i64tostr strprintf_u true s w).2.nOrderPos =
      (match MapFind "n" s.mapValue with
       | none => -1
       | some v => atoi64 v) ∧
    (SerializationOp atoi64 i64tostr strprintf_u true s w).2.nTimeSmart =
      (match MapFind "timesmart" s.mapValue with
       | none => 0
       | some v => ((atoi64 v) % (2 ^ 32 : Int)).toNat) := by
  unfold SerializationOp
  simp only [if_true, Bool.true_eq_false, if_false, MapIndex_present _ _ _ ha]
  refine ⟨trivial, ?_, ?_⟩
  · cases hn : MapFind "n" s.mapValue with
    | none => rw [ReadOrderPos_absent _ _ ((MapCount_eq_zero_iff _ _).2 hn)]
    | some v => rw [ReadOrderPos_present _ _ _ hn]
  · have hr : (ReadOrderPos atoi64 s.mapValue).2 = s.mapValue := by
      cases hn : MapFind "n" s.mapValue with
      | none => rw [ReadOrderPos_absent _ _ ((MapCount_eq_zero_iff _ _).2 hn)]
      | some v => rw [ReadOrderPos_present _ _ _ hn]
    rw [hr]
    cases ht : MapFind "timesmart" s.mapValue with
    | none =>
      have hc : MapCount "timesmart" s.mapValue = 0 := (MapCount_eq_zero_iff _ _).2 ht
      simp [hc]
    | some v =>
      have hc : MapCount "timesmart" s.mapValue ≠ 0 := by
        rw [ne_eq, MapCount_eq_zero_iff, ht]; simp
      simp [hc, MapIndex_present _ _ _ ht]

end CWalletTxState

/-- C17. Let `atoi64` undo `i64tostr` on the range of an `int64_t` and undo the
`%u` printing of an `unsigned int`. For every wallet transaction whose map has
neither key "n" nor key "timesmart", writing it with `SerializationOp` and
reading the written record back, into any object, yields `strFromAccount`,
`nOrderPos` and `nTimeSmart` equal to the originals, `nOrderPos = −1` and
`nTimeSmart = 0` included. -/
theorem C17_SerializationOp_round_trip (atoi64 : String → Int) (i64tostr : Int → String)
    (strprintf_u : Nat → String)
    (hinv : ∀ x : Int, INT64_MIN ≤ x → x ≤ INT64_MAX → atoi64 (i64tostr x) = x)
    (hinvu : ∀ n : Nat, n < 2 ^ 32 → atoi64 (strprintf_u n) = n)
    (s : CWalletTxRecord) (w w2 : CWalletTxState)
    (hlo : INT64_MIN ≤ w.nOrderPos) (hhi : w.nOrderPos ≤ INT64_MAX)
    (htime : w.nTimeSmart < 2 ^ 32)
    (hn : MapCount "n" w.mapValue = 0) (ht : MapCount "timesmart" w.mapValue = 0) :
    (CWalletTxState.SerializationOp atoi64 i64tostr strprintf_u true
      (CWalletTxState.SerializationOp atoi64 i64tostr strprintf_u false s w).1
      w2).2.strFromAccount = w.strFromAccount ∧
    (CWalletTxState.SerializationOp atoi64 i64tostr strprintf_u true
      (CWalletTxState.SerializationOp atoi64 i64tostr strprintf_u false s w).1
      w2).2.nOrderPos = w.nOrderPos ∧
    (CWalletTxState.SerializationOp atoi64 i64tostr strprintf_u true
      (CWalletTxState.SerializationOp atoi64 i64tostr strprintf_u false s w).1
      w2).2.nTimeSmart = w.nTimeSmart := by
  obtain ⟨f1, f2, f3⟩ := CWalletTxState.SerializationOp_write_record atoi64 i64tostr
    strprintf_u s w hn ht
  obtain ⟨r1, r2, r3⟩ := CWalletTxState.SerializationOp_read atoi64 i64tostr strprintf_u
    (CWalletTxState.SerializationOp atoi64 i64tostr strprintf_u false s w).1 w2
    w.strFromAccount f1
  refine ⟨r1, ?_, ?_⟩
  · rw [r2, f2]
    split_ifs with hp
    · exact hp.symm
    · exact hinv _ hlo hhi
  · rw [r3, f3]
    split_ifs with hs
    · exact hs.symm
    · simp only [hinvu _ htime]
      have h1 : ((w.nTimeSmart : Int) % (2 ^ 32 : Int)) = (w.nTimeSmart : Int) :=
        Int.emod_eq_of_lt (by omega) (by exact_mod_cast htime)
      rw [h1]
      exact Int.toNat_natCast _

/-- Witness for C17: the example wallet transaction written and read back with
the decimal conversions. -/
theorem C17_SerializationOp_round_trip_witness :
    (CWalletTxState.SerializationOp atoi64Decimal i64tostrDecimal utostrDecimal true
      (CWalletTxState.SerializationOp atoi64Decimal i64tostrDecimal utostrDecimal false
        exampleEmptyRecord exampleWalletTx).1 exampleWalletTx).2.strFromAccount = "savings" ∧
    (CWalletTxState.SerializationOp atoi64Decimal i64tostrDecimal utostrDecimal true
      (CWalletTxState.SerializationOp atoi64Decimal i64tostrDecimal utostrDecimal false
        exampleEmptyRecord exampleWalletTx).1 exampleWalletTx).2.nOrderPos = 17 ∧
    (CWalletTxState.SerializationOp atoi64Decimal i64tostrDecimal utostrDecimal true
      (CWalletTxState.SerializationOp atoi64Decimal i64tostrDecimal utostrDecimal false
        exampleEmptyRecord exampleWalletTx).1 exampleWalletTx).2.nTimeSmart = 1450000000 :=
  C17_SerializationOp_round_trip atoi64Decimal i64tostrDecimal utostrDecimal
    atoi64Decimal_i64tostrDecimal
    (fun n hn => atoi64Decimal_utostrDecimal n (by
      have h : (n : Int) < 2 ^ 32 := by exact_mod_cast hn
      unfold INT64_MAX
      omega))
    exampleEmptyRecord exampleWalletTx exampleWalletTx (by decide) (by decide) (by decide)
    (by decide) (by decide)

end Bitcoin
